import Mathlib

/-!
Shallow embedding of the s2list package (src/s2list.go): a singly-linked
first/last list whose nodes carry a back-pointer to their owning list, plus a
validating iterator.  Pointers are modelled as `Option Nat` indices into
explicit heaps of nodes and list-bases; `none` is the Go `nil`.  Each Go
method becomes a Lean function that threads the heap state and returns the
method's results together with an optional error.  Error sites are labelled
with the error taxonomy of the design (NilReceiver, AlreadyOwned, NotOwner,
CorruptState, UnboundIterator); the Go source produces string errors at
exactly these sites.
-/

namespace S2L

/-- A pointer: `none` is Go's `nil`, `some i` is a heap index. -/
abbrev Ptr := Option Nat

/-- Error labels for the failure sites of the package. -/
inductive Err where
  | nilReceiver
  | alreadyOwned
  | notOwner
  | corruptState
  | unboundIterator
deriving DecidableEq

/-- The fields of `List_node`: `next` link, `base` back-pointer to the owning
`List_base`, and the payload (`interface\x7b\x7d` in Go, here `Option α`; the Go
zero value of an interface is `nil`, modelled as `none`). -/
structure NodeData (α : Type) where
  next : Ptr
  base : Ptr
  value : Option α
deriving DecidableEq

/-- The fields of `List_base`: pointers to the first and last node. -/
structure BaseData where
  first : Ptr
  last : Ptr
deriving DecidableEq

/-- The heap: all allocated `List_node` and `List_base` objects.  A Go
pointer `*List_node` is `none` or `some i` with `i` an index into `nodes`. -/
structure State (α : Type) where
  nodes : List (NodeData α)
  bases : List BaseData
deriving DecidableEq

/-- Dereference a node index (total: out-of-range reads give the zero node,
which never happens for pointers produced by the operations). -/
def getNode (st : State α) (i : Nat) : NodeData α :=
  (st.nodes[i]?).getD ⟨none, none, none⟩

/-- Write a node through its index. -/
def setNode (st : State α) (i : Nat) (d : NodeData α) : State α :=
  { st with nodes := st.nodes.set i d }

/-- Dereference a base index. -/
def getBase (st : State α) (b : Nat) : BaseData :=
  (st.bases[b]?).getD ⟨none, none⟩

/-- Write a base through its index. -/
def setBase (st : State α) (b : Nat) (d : BaseData) : State α :=
  { st with bases := st.bases.set b d }

/-- `new(List_node)`: allocate a zero-valued node at the next free index. -/
def allocNode (st : State α) : State α :=
  { st with nodes := st.nodes ++ [⟨none, none, none⟩] }

/-- A freshly created empty heap: no nodes, `k` empty list-bases. -/
def initState (α : Type) (k : Nat) : State α :=
  ⟨[], List.replicate k ⟨none, none⟩⟩

/-- `List_node::GetNext`: read-only access to the next-field. -/
def List_node.GetNext (st : State α) (p : Ptr) : Ptr × Option Err :=
  match p with
  | none => (none, some .nilReceiver)
  | some i => ((getNode st i).next, none)

/-- `List_node::unlink`: clear `next` and `base`; the payload is untouched. -/
def List_node.unlink (st : State α) (p : Ptr) : State α × Option Err :=
  match p with
  | none => (st, some .nilReceiver)
  | some i => (setNode st i { getNode st i with next := none, base := none }, none)

/-- `List_node::SetValue`: overwrite the payload. -/
def List_node.SetValue (st : State α) (p : Ptr) (v : α) : State α × Option Err :=
  match p with
  | none => (st, some .nilReceiver)
  | some i => (setNode st i { getNode st i with value := some v }, none)

/-- `List_node::GetValue`: read the payload. -/
def List_node.GetValue (st : State α) (p : Ptr) : Option α × Option Err :=
  match p with
  | none => (none, some .nilReceiver)
  | some i => ((getNode st i).value, none)

/-- `List_base::Empty`: true when the receiver is nil or `first` is nil.
Note: a nil receiver yields `true`, not an error. -/
def List_base.Empty (st : State α) (p : Ptr) : Bool :=
  match p with
  | none => true
  | some b => (getBase st b).first = none

/-- `List_base::GetFirst`: read-only access to `first`; nil receiver gives
nil, not an error. -/
def List_base.GetFirst (st : State α) (p : Ptr) : Ptr :=
  match p with
  | none => none
  | some b => (getBase st b).first

/-- The counting loop of `List_base::Length`, with fuel for termination
(the Go loop terminates on every acyclic chain, and every chain produced by
the operations is acyclic; fuel `nodes.length + 1` is enough for those). -/
def lengthAux (st : State α) : Nat → Ptr → Nat
  | 0, _ => 0
  | _, none => 0
  | fuel + 1, some i => lengthAux st fuel (getNode st i).next + 1

/-- `List_base::Length`: walk the chain and count; nil receiver gives 0.
The walk only runs when both `first` and `last` are non-nil. -/
def List_base.Length (st : State α) (p : Ptr) : Nat :=
  match p with
  | none => 0
  | some b =>
    match (getBase st b).first, (getBase st b).last with
    | some _, some _ => lengthAux st (st.nodes.length + 1) (getBase st b).first
    | _, _ => 0

/-- The tallying loop of `List_base::ValidLength`:
(nil-owner count, wrong-owner count, total count). -/
def validAux (st : State α) (b : Nat) : Nat → Ptr → Nat × Nat × Nat
  | 0, _ => (0, 0, 0)
  | _, none => (0, 0, 0)
  | fuel + 1, some i =>
    let r := validAux st b fuel (getNode st i).next
    match (getNode st i).base with
    | none => (r.1 + 1, r.2.1, r.2.2 + 1)
    | some ob => if ob = b then (r.1, r.2.1, r.2.2 + 1) else (r.1, r.2.1 + 1, r.2.2 + 1)

/-- `List_base::ValidLength`: triple of (nil-owner, wrong-owner, total)
node counts; (0,0,0) for a nil receiver or when `first` or `last` is nil. -/
def List_base.ValidLength (st : State α) (p : Ptr) : Nat × Nat × Nat :=
  match p with
  | none => (0, 0, 0)
  | some b =>
    match (getBase st b).first, (getBase st b).last with
    | some _, some _ => validAux st b (st.nodes.length + 1) (getBase st b).first
    | _, _ => (0, 0, 0)

/-- `List_base::Append`: reject nil receiver; a nil node argument is a
silent no-op; reject a node whose `base` is already set; otherwise register
the node, clear its `next`, link it after `last` (or install it as `first`
on an empty list) and update `last`. -/
def List_base.Append (st : State α) (p : Ptr) (pnode : Ptr) : State α × Option Err :=
  match p with
  | none => (st, some .nilReceiver)
  | some b =>
    match pnode with
    | none => (st, none)
    | some i =>
      if (getNode st i).base ≠ none then (st, some .alreadyOwned)
      else
        let st1 := setNode st i { getNode st i with base := some b, next := none }
        match (getBase st1 b).last with
        | some l =>
          let st2 := setNode st1 l { getNode st1 l with next := some i }
          (setBase st2 b { getBase st2 b with last := some i }, none)
        | none =>
          (setBase st1 b { getBase st1 b with first := some i, last := some i }, none)

/-- `List_base::AppendValue`: allocate a fresh node, set its payload, append
it.  The receiver-nil check happens before the allocation, as in the source. -/
def List_base.AppendValue (st : State α) (p : Ptr) (v : α) : State α × Option Err :=
  match p with
  | none => (st, some .nilReceiver)
  | some b =>
    let i := st.nodes.length
    let st1 := allocNode st
    let r2 := List_node.SetValue st1 (some i) v
    match r2.2 with
    | some e => (r2.1, some e)
    | none =>
      let r3 := List_base.Append r2.1 (some b) (some i)
      (r3.1, r3.2)

/-- `List_base::Prepend`: reject nil receiver; nil node argument is a
no-op; reject an owned node; otherwise register the node, point its `next`
at the old `first`, install it as `first`, and set `last` if it was nil. -/
def List_base.Prepend (st : State α) (p : Ptr) (pnode : Ptr) : State α × Option Err :=
  match p with
  | none => (st, some .nilReceiver)
  | some b =>
    match pnode with
    | none => (st, none)
    | some i =>
      if (getNode st i).base ≠ none then (st, some .alreadyOwned)
      else
        let st1 := setNode st i { getNode st i with base := some b, next := (getBase st b).first }
        let st2 := setBase st1 b { getBase st1 b with first := some i }
        if (getBase st2 b).last = none then
          (setBase st2 b { getBase st2 b with last := some i }, none)
        else (st2, none)

/-- `List_base::PrependValue`: allocate, set payload, prepend. -/
def List_base.PrependValue (st : State α) (p : Ptr) (v : α) : State α × Option Err :=
  match p with
  | none => (st, some .nilReceiver)
  | some b =>
    let i := st.nodes.length
    let st1 := allocNode st
    let r2 := List_node.SetValue st1 (some i) v
    match r2.2 with
    | some e => (r2.1, some e)
    | none =>
      let r3 := List_base.Prepend r2.1 (some b) (some i)
      (r3.1, r3.2)

/-- `List_base::Popfirst`.  Returns (popped node, new state, error).
An empty list (nil `first`) yields (nil, no error) — even when `last` is
non-nil, because the `first == nil` test comes first in the source.  With
`first` non-nil but `last` nil it reports corruption. -/
def List_base.Popfirst (st : State α) (p : Ptr) : Ptr × State α × Option Err :=
  match p with
  | none => (none, st, some .nilReceiver)
  | some b =>
    match (getBase st b).first with
    | none => (none, st, none)
    | some f =>
      if (getBase st b).last = none then (none, st, some .corruptState)
      else
        let st1 := if (getBase st b).last = (getBase st b).first then
            setBase st b { getBase st b with last := none }
          else st
        let st2 := setBase st1 b { getBase st1 b with first := (getNode st1 f).next }
        ((some f), (List_node.unlink st2 (some f)).1, none)

/-- The predecessor scan of `List_base::Poplast` and `List_base::Remove`:
first node in the chain from `c` whose `next` equals `tgt`, else `none`. -/
def findAux (st : State α) (tgt : Ptr) : Nat → Ptr → Option Nat
  | 0, _ => none
  | _, none => none
  | fuel + 1, some i =>
    if (getNode st i).next = tgt then some i
    else findAux st tgt fuel (getNode st i).next

/-- `List_base::Poplast`.  Empty list yields (nil, no error); `first` non-nil
with `last` nil is corruption; a one-element list clears both ends; otherwise
scan for the predecessor of `last` (failure to find one is corruption),
truncate there and unlink the old tail. -/
def List_base.Poplast (st : State α) (p : Ptr) : Ptr × State α × Option Err :=
  match p with
  | none => (none, st, some .nilReceiver)
  | some b =>
    match (getBase st b).first with
    | none => (none, st, none)
    | some f =>
      match (getBase st b).last with
      | none => (none, st, some .corruptState)
      | some l =>
        if l = f then
          let st1 := setBase st b { getBase st b with first := none, last := none }
          ((some f), (List_node.unlink st1 (some f)).1, none)
        else
          match findAux st (some l) (st.nodes.length + 1) (getBase st b).first with
          | none => (none, st, some .corruptState)
          | some q =>
            let st1 := setNode st q { getNode st q with next := none }
            let st2 := setBase st1 b { getBase st1 b with last := some q }
            ((some l), (List_node.unlink st2 (some l)).1, none)

/-- The reference-equality scan of `List_base::Found`. -/
def foundAux (st : State α) (q : Nat) : Nat → Ptr → Bool
  | 0, _ => false
  | _, none => false
  | fuel + 1, some i => if i = q then true else foundAux st q fuel (getNode st i).next

/-- `List_base::Found`: nil node or empty list give (false, no error);
`first` non-nil with `last` nil is corruption; a node whose `base` is not
this list — including a nil `base` — is rejected with an error before any
scan; otherwise scan for reference equality. -/
def List_base.Found (st : State α) (p : Ptr) (q : Ptr) : Bool × Option Err :=
  match p with
  | none => (false, some .nilReceiver)
  | some b =>
    match q with
    | none => (false, none)
    | some qi =>
      match (getBase st b).first with
      | none => (false, none)
      | some _ =>
        if (getBase st b).last = none then (false, some .corruptState)
        else if (getNode st qi).base ≠ some b then (false, some .notOwner)
        else (foundAux st qi (st.nodes.length + 1) (getBase st b).first, none)

/-- `List_base::Remove`.  Nil node or empty list give (nil, no error); the
corruption and ownership checks mirror `Found`; removing the head mirrors
`Popfirst`; otherwise splice the predecessor around the node (no predecessor
found is corruption), fixing `last` when the tail was removed. -/
def List_base.Remove (st : State α) (p : Ptr) (q : Ptr) : Ptr × State α × Option Err :=
  match p with
  | none => (none, st, some .nilReceiver)
  | some b =>
    match q with
    | none => (none, st, none)
    | some qi =>
      match (getBase st b).first with
      | none => (none, st, none)
      | some f =>
        if (getBase st b).last = none then (none, st, some .corruptState)
        else if (getNode st qi).base ≠ some b then (none, st, some .notOwner)
        else if f = qi then
          let st1 := if (getBase st b).last = (getBase st b).first then
              setBase st b { getBase st b with last := none }
            else st
          let st2 := setBase st1 b { getBase st1 b with first := (getNode st1 qi).next }
          ((some qi), (List_node.unlink st2 (some qi)).1, none)
        else
          match findAux st (some qi) (st.nodes.length + 1) (getBase st b).first with
          | none => (none, st, some .corruptState)
          | some pn =>
            let st1 := setNode st pn { getNode st pn with next := (getNode st qi).next }
            let st2 := if (getBase st1 b).last = some qi then
                setBase st1 b { getBase st1 b with last := some pn }
              else st1
            ((some qi), (List_node.unlink st2 (some qi)).1, none)

/-- The pop-and-unlink loop of `List_base::Clear`. -/
def clearAux (st : State α) (b : Nat) : Nat → State α
  | 0 => st
  | fuel + 1 =>
    match (getBase st b).first with
    | none => st
    | some f =>
      let st1 := if (getBase st b).last = (getBase st b).first then
          setBase st b { getBase st b with last := none }
        else st
      let st2 := setBase st1 b { getBase st1 b with first := (getNode st1 f).next }
      let st3 := (List_node.unlink st2 (some f)).1
      clearAux st3 b fuel

/-- `List_base::Clear`: no-op on an empty list; `first` non-nil with `last`
nil is corruption; otherwise repeatedly pop and unlink the head. -/
def List_base.Clear (st : State α) (p : Ptr) : State α × Option Err :=
  match p with
  | none => (st, some .nilReceiver)
  | some b =>
    match (getBase st b).first with
    | none => (st, none)
    | some _ =>
      if (getBase st b).last = none then (st, some .corruptState)
      else (clearAux st b (st.nodes.length + 1), none)

/-- The fields of `List_iter`: the list being traversed and the last node
delivered (`none` when the traversal has not started). -/
structure IterData where
  base : Ptr
  current : Ptr
deriving DecidableEq

/-- `List_iter::Init`: bind the iterator to a list (possibly nil) and reset
the cursor. -/
def List_iter.Init (p : Option IterData) (b : Ptr) : Option IterData × Option Err :=
  match p with
  | none => (none, some .nilReceiver)
  | some _ => (some ⟨b, none⟩, none)

/-- `List_iter::Restart`: reset the cursor, keeping the bound list. -/
def List_iter.Restart (p : Option IterData) : Option IterData × Option Err :=
  match p with
  | none => (none, some .nilReceiver)
  | some it => (some { it with current := none }, none)

/-- `List_iter::ItemCount`: length of the bound list; 0 when unbound. -/
def List_iter.ItemCount (st : State α) (p : Option IterData) : Nat :=
  match p with
  | none => 0
  | some it =>
    match it.base with
    | none => 0
    | some b => List_base.Length st (some b)

/-- `List_iter::ItemCountValid`: `ValidLength` of the bound list. -/
def List_iter.ItemCountValid (st : State α) (p : Option IterData) : Nat × Nat × Nat :=
  match p with
  | none => (0, 0, 0)
  | some it =>
    match it.base with
    | none => (0, 0, 0)
    | some b => List_base.ValidLength st (some b)

/-- `List_iter::Next`.  Returns (delivered node, updated iterator, error).
Unbound iterator is an error.  From an unstarted cursor the cursor is first
assigned the list's head; an empty list ends the traversal with no error;
a head with nil or foreign `base` is corruption — note the cursor has
already moved to the head when this error is reported, exactly as in the
source, where `p.current = p.base.first` precedes the checks.  From a
positioned cursor the owner is re-validated (nil or foreign `base` is
corruption, cursor kept), a nil `next` ends the traversal with no error and
keeps the cursor, and otherwise the cursor advances. -/
def List_iter.Next (st : State α) (p : Option IterData) : Ptr × Option IterData × Option Err :=
  match p with
  | none => (none, none, some .nilReceiver)
  | some it =>
    match it.base with
    | none => (none, some it, some .unboundIterator)
    | some b =>
      match it.current with
      | none =>
        match (getBase st b).first with
        | none => (none, some { it with current := none }, none)
        | some f =>
          if (getNode st f).base = none then
            (none, some { it with current := some f }, some .corruptState)
          else if (getNode st f).base ≠ some b then
            (none, some { it with current := some f }, some .corruptState)
          else ((some f), some { it with current := some f }, none)
      | some c =>
        if (getNode st c).base = none then (none, some it, some .corruptState)
        else if (getNode st c).base ≠ some b then (none, some it, some .corruptState)
        else
          match (getNode st c).next with
          | none => (none, some it, none)
          | some nx => ((some nx), some { it with current := some nx }, none)

/-! ### Chains

`chainSeg st c L c'` says that starting from pointer `c` and following the
`next` fields through exactly the nodes listed in `L` ends at pointer `c'`.
`chainSeg st c L none` is the statement that `L` is the complete chain
hanging off `c`. -/

def chainSeg (st : State α) : Ptr → List Nat → Ptr → Prop
  | c, [], c' => c = c'
  | c, i :: t, c' => c = some i ∧ chainSeg st (getNode st i).next t c'

/-! ### The structural invariant -/

/-- The well-formedness of one list-base `b`: `L` is the complete chain of
node indices from `first`, it is duplicate-free, all its members are valid
heap indices owned by `b`, and `last` points at its final element. -/
structure BaseInv (st : State α) (b : Nat) (L : List Nat) : Prop where
  chain : chainSeg st (getBase st b).first L none
  valid : ∀ i ∈ L, i < st.nodes.length
  nodup : L.Nodup
  owned : ∀ i ∈ L, (getNode st i).base = some b
  lastEq : (getBase st b).last = L.getLast?

/-- Global invariant: every allocated list-base is well formed. -/
def Inv (st : State α) : Prop := ∀ b, b < st.bases.length → ∃ L, BaseInv st b L

/-! ### Reachable states

A state is reachable when it arises from freshly created empty lists and
freshly created detached nodes by the public operations of the package
(applied through valid, non-nil receivers and node pointers; the nil-receiver
and nil-argument paths never change the state). -/

inductive Reachable {α : Type} : State α → Prop where
  | init (k : Nat) : Reachable (initState α k)
  | alloc {st : State α} : Reachable st → Reachable (allocNode st)
  | setValue {st : State α} (i : Nat) (v : α) : Reachable st →
      i < st.nodes.length → Reachable (List_node.SetValue st (some i) v).1
  | append {st : State α} (b i : Nat) : Reachable st → b < st.bases.length →
      i < st.nodes.length → Reachable (List_base.Append st (some b) (some i)).1
  | appendValue {st : State α} (b : Nat) (v : α) : Reachable st →
      b < st.bases.length → Reachable (List_base.AppendValue st (some b) v).1
  | prepend {st : State α} (b i : Nat) : Reachable st → b < st.bases.length →
      i < st.nodes.length → Reachable (List_base.Prepend st (some b) (some i)).1
  | prependValue {st : State α} (b : Nat) (v : α) : Reachable st →
      b < st.bases.length → Reachable (List_base.PrependValue st (some b) v).1
  | popfirst {st : State α} (b : Nat) : Reachable st → b < st.bases.length →
      Reachable (List_base.Popfirst st (some b)).2.1
  | poplast {st : State α} (b : Nat) : Reachable st → b < st.bases.length →
      Reachable (List_base.Poplast st (some b)).2.1
  | remove {st : State α} (b i : Nat) : Reachable st → b < st.bases.length →
      i < st.nodes.length → Reachable (List_base.Remove st (some b) (some i)).2.1
  | clear {st : State α} (b : Nat) : Reachable st → b < st.bases.length →
      Reachable (List_base.Clear st (some b)).1

/-! ### Concrete heaps used by the claim theorems -/

/-- A corrupt heap: one detached node; list 0 has `first` nil but `last` set. -/
def stC1 : State Int := ⟨[⟨none, none, none⟩], [⟨none, some 0⟩]⟩

/-- A corrupt heap: one detached node; list 0 has `first` set but `last` nil. -/
def stC1b : State Int := ⟨[⟨none, none, none⟩], [⟨some 0, none⟩]⟩

/-- The C3 scenario heap: values "a" and "b" appended to a fresh list, plus a
freshly constructed, never-inserted node (index 2, owner nil). -/
def stC3 : State String :=
  allocNode (List_base.AppendValue
    ((List_base.AppendValue (initState String 1) (some 0) "a").1) (some 0) "b").1

/-- A heap owned by one list: node 0 appended to fresh list 0. -/
def stW4 : State Int := (List_base.Append (allocNode (initState Int 1)) (some 0) (some 0)).1

/-- The same heap as a `Reachable` witness target for the ownership invariant. -/
def stW5 : State Int := (List_base.Append (allocNode (initState Int 1)) (some 0) (some 0)).1

/-- The C6 round-trip heap: values 1, 2, 3 appended to a fresh list. -/
def stC6 : State Int :=
  (List_base.AppendValue ((List_base.AppendValue
    ((List_base.AppendValue (initState Int 1) (some 0) 1).1) (some 0) 2).1) (some 0) 3).1

/-- A two-element heap for the clear specification witness. -/
def stW7 : State Int :=
  (List_base.AppendValue ((List_base.AppendValue (initState Int 1) (some 0) 10).1)
    (some 0) 20).1

/-- A corrupt heap for the iterator: the head node of list 0 has a nil owner. -/
def stC8 : State Int := ⟨[⟨none, none, none⟩], [⟨some 0, some 0⟩]⟩

/-- A one-element heap whose single node is the chain end of list 0. -/
def stC10 : State Int := ⟨[⟨none, some 0, some 7⟩], [⟨some 0, some 0⟩]⟩

/-! ### Heap accessor lemmas -/

theorem getNode_setNode (st : State α) (i j : Nat) (d : NodeData α) :
    getNode (setNode st i d) j =
      if i = j ∧ i < st.nodes.length then d else getNode st j := by
  simp only [getNode, setNode, List.getElem?_set]
  by_cases hij : i = j
  · subst hij
    by_cases hlen : i < st.nodes.length
    · simp [hlen]
    · simp [hlen, List.getElem?_eq_none (Nat.le_of_not_lt hlen)]
  · simp [hij]

theorem getNode_setNode_self (st : State α) (i : Nat) (d : NodeData α)
    (h : i < st.nodes.length) : getNode (setNode st i d) i = d := by
  simp [getNode_setNode, h]

theorem getNode_setNode_ne (st : State α) {i j : Nat} (d : NodeData α) (h : i ≠ j) :
    getNode (setNode st i d) j = getNode st j := by
  simp [getNode_setNode, h]

@[simp] theorem getBase_setNode (st : State α) (i : Nat) (d : NodeData α) (b : Nat) :
    getBase (setNode st i d) b = getBase st b := rfl

@[simp] theorem getNode_setBase (st : State α) (b : Nat) (d : BaseData) (i : Nat) :
    getNode (setBase st b d) i = getNode st i := rfl

theorem getBase_setBase (st : State α) (b b' : Nat) (d : BaseData) :
    getBase (setBase st b d) b' =
      if b = b' ∧ b < st.bases.length then d else getBase st b' := by
  simp only [getBase, setBase, List.getElem?_set]
  by_cases hbb : b = b'
  · subst hbb
    by_cases hlen : b < st.bases.length
    · simp [hlen]
    · simp [hlen, List.getElem?_eq_none (Nat.le_of_not_lt hlen)]
  · simp [hbb]

theorem getBase_setBase_self (st : State α) (b : Nat) (d : BaseData)
    (h : b < st.bases.length) : getBase (setBase st b d) b = d := by
  simp [getBase_setBase, h]

theorem getBase_setBase_ne (st : State α) {b b' : Nat} (d : BaseData) (h : b ≠ b') :
    getBase (setBase st b d) b' = getBase st b' := by
  simp [getBase_setBase, h]

@[simp] theorem nodes_length_setNode (st : State α) (i : Nat) (d : NodeData α) :
    (setNode st i d).nodes.length = st.nodes.length := by
  simp [setNode]

@[simp] theorem nodes_length_setBase (st : State α) (b : Nat) (d : BaseData) :
    (setBase st b d).nodes.length = st.nodes.length := rfl

@[simp] theorem bases_length_setNode (st : State α) (i : Nat) (d : NodeData α) :
    (setNode st i d).bases.length = st.bases.length := rfl

@[simp] theorem bases_length_setBase (st : State α) (b : Nat) (d : BaseData) :
    (setBase st b d).bases.length = st.bases.length := by
  simp [setBase]

@[simp] theorem getNode_allocNode (st : State α) (i : Nat) :
    getNode (allocNode st) i = getNode st i := by
  simp only [getNode, allocNode]
  rcases Nat.lt_trichotomy i st.nodes.length with h | h | h
  · rw [List.getElem?_append_left h]
  · subst h
    rw [List.getElem?_append_right (Nat.le_refl _), List.getElem?_eq_none (Nat.le_refl _)]
    simp
  · rw [List.getElem?_append_right (Nat.le_of_lt h), List.getElem?_eq_none (by simp; omega),
      List.getElem?_eq_none (Nat.le_of_lt h)]

@[simp] theorem getBase_allocNode (st : State α) (b : Nat) :
    getBase (allocNode st) b = getBase st b := rfl

@[simp] theorem nodes_length_allocNode (st : State α) :
    (allocNode st).nodes.length = st.nodes.length + 1 := by
  simp [allocNode]

@[simp] theorem bases_length_allocNode (st : State α) :
    (allocNode st).bases.length = st.bases.length := rfl

@[simp] theorem getBase_initState (k b : Nat) :
    getBase (initState α k) b = ⟨none, none⟩ := by
  simp only [getBase, initState, List.getElem?_replicate]
  split <;> rfl

theorem chainSeg_nil {st : State α} {c c' : Ptr} : chainSeg st c [] c' ↔ c = c' :=
  Iff.rfl

theorem chainSeg_cons {st : State α} {c c' : Ptr} {i : Nat} {t : List Nat} :
    chainSeg st c (i :: t) c' ↔ c = some i ∧ chainSeg st (getNode st i).next t c' :=
  Iff.rfl

theorem chainSeg_append {st : State α} {L₁ L₂ : List Nat} {c c'' : Ptr} :
    chainSeg st c (L₁ ++ L₂) c'' ↔ ∃ m, chainSeg st c L₁ m ∧ chainSeg st m L₂ c'' := by
  induction L₁ generalizing c with
  | nil =>
    constructor
    · intro h; exact ⟨c, rfl, h⟩
    · rintro ⟨m, rfl, h⟩; exact h
  | cons i t ih =>
    constructor
    · rintro ⟨rfl, h⟩
      obtain ⟨m, h1, h2⟩ := ih.mp h
      exact ⟨m, ⟨rfl, h1⟩, h2⟩
    · rintro ⟨m, ⟨rfl, h1⟩, h2⟩
      exact ⟨rfl, ih.mpr ⟨m, h1, h2⟩⟩

theorem chainSeg_congr {st st' : State α} {L : List Nat} {c c' : Ptr}
    (h : ∀ i ∈ L, (getNode st' i).next = (getNode st i).next)
    (hs : chainSeg st c L c') : chainSeg st' c L c' := by
  induction L generalizing c with
  | nil => exact hs
  | cons i t ih =>
    obtain ⟨rfl, hs⟩ := hs
    refine ⟨rfl, ?_⟩
    rw [h i (List.mem_cons_self i t)]
    exact ih (fun j hj => h j (List.mem_cons_of_mem i hj)) hs

theorem chainSeg_mem_split {st : State α} {L : List Nat} {c c' : Ptr} {j : Nat}
    (h : chainSeg st c L c') (hj : j ∈ L) :
    ∃ X Y, L = X ++ j :: Y ∧ chainSeg st c X (some j) ∧
      chainSeg st (getNode st j).next Y c' := by
  induction L generalizing c with
  | nil => cases hj
  | cons i t ih =>
    obtain ⟨rfl, hs⟩ := h
    rcases List.mem_cons.mp hj with rfl | hj'
    · exact ⟨[], t, rfl, rfl, hs⟩
    · obtain ⟨X, Y, hL, h1, h2⟩ := ih hs hj'
      exact ⟨i :: X, Y, by rw [hL, List.cons_append], ⟨rfl, h1⟩, h2⟩

theorem chainSeg_none {st : State α} {L : List Nat} {c' : Ptr}
    (h : chainSeg st (none : Ptr) L c') : L = [] ∧ c' = none := by
  cases L with
  | nil => exact ⟨rfl, h.symm⟩
  | cons i t => exact absurd h.1 (by simp)

theorem chainSeg_some {st : State α} {L : List Nat} {f : Nat} {c' : Ptr}
    (h : chainSeg st (some f) L c') (hne : c' ≠ some f ∨ L ≠ []) :
    ∃ t, L = f :: t ∧ chainSeg st (getNode st f).next t c' := by
  cases L with
  | nil =>
    rcases hne with hne | hne
    · exact absurd h.symm hne
    · exact absurd rfl hne
  | cons i t =>
    obtain ⟨hf, hs⟩ := h
    cases hf
    exact ⟨t, rfl, hs⟩

/-- The number of distinct indices below `n` bounds a nodup chain's length. -/
theorem nodup_length_le {L : List Nat} {n : Nat} (hnd : L.Nodup)
    (hlt : ∀ i ∈ L, i < n) : L.length ≤ n := by
  classical
  have h1 : L.toFinset.card = L.length := List.toFinset_card_of_nodup hnd
  have h2 : L.toFinset ⊆ Finset.range n := by
    intro x hx
    exact Finset.mem_range.mpr (hlt x (List.mem_toFinset.mp hx))
  have h3 := Finset.card_le_card h2
  rw [h1, Finset.card_range] at h3
  exact h3

/-- Soundness of the predecessor scan: whatever `findAux` returns is a chain
member whose `next` is the target. -/
theorem findAux_sound {st : State α} {tgt : Ptr} {L : List Nat} :
    ∀ {fuel : Nat} {c : Ptr}, chainSeg st c L none → ∀ {j : Nat},
      findAux st tgt fuel c = some j → j ∈ L ∧ (getNode st j).next = tgt := by
  induction L with
  | nil =>
    intro fuel c h j hf
    obtain rfl := chainSeg_nil.mp h
    cases fuel <;> simp [findAux] at hf
  | cons i t ih =>
    intro fuel c h j hf
    obtain ⟨rfl, hs⟩ := h
    cases fuel with
    | zero => simp [findAux] at hf
    | succ fuel' =>
      rw [findAux] at hf
      by_cases hnx : (getNode st i).next = tgt
      · rw [if_pos hnx] at hf
        cases hf
        exact ⟨List.mem_cons_self i t, hnx⟩
      · rw [if_neg hnx] at hf
        obtain ⟨hm, hn⟩ := ih hs hf
        exact ⟨List.mem_cons_of_mem i hm, hn⟩

/-- Frame rule: a state change that does not touch base `b`, does not shrink
the node heap, and leaves every chain member's node intact preserves
`BaseInv`. -/
theorem BaseInv.frame {st st' : State α} {b : Nat} {L : List Nat} (h : BaseInv st b L)
    (hB : getBase st' b = getBase st b)
    (hlen : st.nodes.length ≤ st'.nodes.length)
    (hch : ∀ j ∈ L, getNode st' j = getNode st j) : BaseInv st' b L where
  chain := by
    rw [hB]
    exact chainSeg_congr (fun i hi => by rw [hch i hi]) h.chain
  valid := fun i hi => Nat.lt_of_lt_of_le (h.valid i hi) hlen
  nodup := h.nodup
  owned := fun i hi => by rw [hch i hi]; exact h.owned i hi
  lastEq := by rw [hB]; exact h.lastEq

/-- Congruence rule: a state change that preserves every node's `next` and
`base` fields (it may change payloads or grow the heap) and does not touch
base `b` preserves `BaseInv`. -/
theorem BaseInv.congr {st st' : State α} {b : Nat} {L : List Nat} (h : BaseInv st b L)
    (hB : getBase st' b = getBase st b)
    (hlen : st.nodes.length ≤ st'.nodes.length)
    (hn : ∀ j, (getNode st' j).next = (getNode st j).next)
    (hba : ∀ j, (getNode st' j).base = (getNode st j).base) : BaseInv st' b L where
  chain := by
    rw [hB]
    exact chainSeg_congr (fun i _ => hn i) h.chain
  valid := fun i hi => Nat.lt_of_lt_of_le (h.valid i hi) hlen
  nodup := h.nodup
  owned := fun i hi => by rw [hba i]; exact h.owned i hi
  lastEq := by rw [hB]; exact h.lastEq

/-- A nonempty well-formed chain decomposes as head plus rest. -/
theorem BaseInv.first_some {st : State α} {b f : Nat} {L : List Nat}
    (h : BaseInv st b L) (hf : (getBase st b).first = some f) :
    ∃ T, L = f :: T ∧ chainSeg st (getNode st f).next T none := by
  have hc := h.chain
  rw [hf] at hc
  cases L with
  | nil => exact absurd hc.symm (by simp [chainSeg_nil])
  | cons i t =>
    obtain ⟨hif, hs⟩ := hc
    cases hif
    exact ⟨t, rfl, hs⟩

/-- An empty `first` forces the empty chain. -/
theorem BaseInv.first_none {st : State α} {b : Nat} {L : List Nat}
    (h : BaseInv st b L) (hf : (getBase st b).first = none) : L = [] := by
  have hc := h.chain
  rw [hf] at hc
  exact (chainSeg_none hc).1

/-! ### The `Clear` loop -/

theorem setBase_setBase (st : State α) (b : Nat) (d1 d2 : BaseData) :
    setBase (setBase st b d1) b d2 = setBase st b d2 := by
  simp [setBase, List.set_set]

/-- Full specification of the pop-and-unlink loop of `List_base::Clear` on a
well-formed chain: it empties the base, detaches exactly the chain members,
and touches nothing else. -/
theorem clearAux_spec {st : State α} {b : Nat} {L : List Nat}
    (hb : b < st.bases.length)
    (hchain : chainSeg st (getBase st b).first L none)
    (hlast : (getBase st b).last = L.getLast?)
    (hvalid : ∀ i ∈ L, i < st.nodes.length)
    (hnodup : L.Nodup) :
    ∀ {fuel : Nat}, L.length < fuel →
      getBase (clearAux st b fuel) b = ⟨none, none⟩ ∧
      (∀ i ∈ L, getNode (clearAux st b fuel) i =
        { getNode st i with next := none, base := none }) ∧
      (∀ j, j ∉ L → getNode (clearAux st b fuel) j = getNode st j) ∧
      (∀ b', b' ≠ b → getBase (clearAux st b fuel) b' = getBase st b') ∧
      (clearAux st b fuel).nodes.length = st.nodes.length ∧
      (clearAux st b fuel).bases.length = st.bases.length := by
  induction L generalizing st with
  | nil =>
    intro fuel hfuel
    obtain ⟨fuel', rfl⟩ : ∃ k, fuel = k + 1 := ⟨fuel - 1, by omega⟩
    have hf : (getBase st b).first = none := chainSeg_nil.mp hchain
    have hl : (getBase st b).last = none := by simpa using hlast
    have hcl : clearAux st b (fuel' + 1) = st := by rw [clearAux, hf]
    rw [hcl]
    refine ⟨?_, by simp, fun j _ => rfl, fun b' _ => rfl, rfl, rfl⟩
    cases hgb : getBase st b with
    | mk fst lst =>
      rw [hgb] at hf hl
      simp only at hf hl
      rw [hf, hl]
  | cons f T ih =>
    intro fuel hfuel
    obtain ⟨fuel', rfl⟩ : ∃ k, fuel = k + 1 := ⟨fuel - 1, by omega⟩
    have hfT : f ∉ T := (List.nodup_cons.mp hnodup).1
    have hndT : T.Nodup := (List.nodup_cons.mp hnodup).2
    have hfval : f < st.nodes.length := hvalid f (List.mem_cons_self f T)
    have hf : (getBase st b).first = some f := by
      cases hc : (getBase st b).first with
      | none =>
        rw [hc] at hchain
        exact absurd (chainSeg_none hchain).1 (by simp)
      | some g =>
        rw [hc] at hchain
        exact (chainSeg_cons.mp hchain).1
    have hchT : chainSeg st (getNode st f).next T none := by
      rw [hf] at hchain; exact hchain.2
    -- whether the last-pointer equals the head
    have hlastcond : ((getBase st b).last = some f) ↔ T = [] := by
      rw [hlast]
      constructor
      · intro he
        cases T with
        | nil => rfl
        | cons x xs =>
          rw [List.getLast?_cons_cons] at he
          exact absurd (List.mem_of_mem_getLast? (by rw [he]; simp)) hfT
      · intro he; subst he; simp
    -- closed form of the state after one loop iteration
    set stn := setNode (setBase st b ⟨(getNode st f).next, T.getLast?⟩) f
      { getNode st f with next := none, base := none } with hstn
    have hstep : clearAux st b (fuel' + 1) = clearAux stn b fuel' := by
      by_cases hcond : (getBase st b).last = some f
      · have hT : T = [] := hlastcond.mp hcond
        have hnx : (getNode st f).next = none := by
          rw [hT] at hchT
          exact chainSeg_nil.mp hchT
        rw [clearAux, hf, if_pos hcond]
        show clearAux ((List_node.unlink (setBase (setBase st b { getBase st b with last := none }) b
          { getBase (setBase st b { getBase st b with last := none }) b with
            first := (getNode (setBase st b { getBase st b with last := none }) f).next }) (some f)).1) b fuel' = _
        rw [getBase_setBase_self _ _ _ hb]
        show clearAux ((List_node.unlink (setBase (setBase st b _) b
          { first := (getNode st f).next, last := none }) (some f)).1) b fuel' = _
        rw [setBase_setBase, hnx, hstn, hT, hnx]
        rfl
      · rw [clearAux, hf, if_neg hcond]
        have hTn : T ≠ [] := fun he => hcond (hlastcond.mpr he)
        have hlT : (getBase st b).last = T.getLast? := by
          rw [hlast]
          cases T with
          | nil => exact absurd rfl hTn
          | cons x xs => rw [List.getLast?_cons_cons]
        rw [hstn, ← hlT]
        rfl
    rw [hstep]
    -- facts about the one-step state
    have hgbn : getBase stn b = ⟨(getNode st f).next, T.getLast?⟩ := by
      rw [hstn, getBase_setNode]
      exact getBase_setBase_self _ _ _ hb
    have hnn : ∀ j, j ≠ f → getNode stn j = getNode st j := by
      intro j hj
      rw [hstn, getNode_setNode_ne _ _ (fun he => hj he.symm), getNode_setBase]
    have hnf : getNode stn f = { getNode st f with next := none, base := none } := by
      rw [hstn]
      have : f < (setBase st b ⟨(getNode st f).next, T.getLast?⟩).nodes.length := by
        simpa using hfval
      rw [getNode_setNode_self _ _ _ this]
    have hbn : ∀ b', b' ≠ b → getBase stn b' = getBase st b' := by
      intro b' hb'
      rw [hstn, getBase_setNode, getBase_setBase_ne _ _ (fun he => hb' he.symm)]
    have hlnn : stn.nodes.length = st.nodes.length := by simp [hstn]
    have hlbn : stn.bases.length = st.bases.length := by simp [hstn]
    -- invariant data for the tail chain in the one-step state
    have hch3 : chainSeg stn (getBase stn b).first T none := by
      rw [hgbn]
      exact chainSeg_congr (fun i hi => by rw [hnn i (fun he => hfT (he ▸ hi))]) hchT
    have hlast3 : (getBase stn b).last = T.getLast? := by rw [hgbn]
    have hval3 : ∀ i ∈ T, i < stn.nodes.length := by
      intro i hi
      rw [hlnn]
      exact hvalid i (List.mem_cons_of_mem f hi)
    obtain ⟨hc1, hc2, hc3, hc4, hc5, hc6⟩ :=
      @ih stn (by rw [hlbn]; exact hb) hch3 hlast3 hval3 hndT fuel'
        (by simp at hfuel; omega)
    refine ⟨hc1, ?_, ?_, ?_, by rw [hc5, hlnn], by rw [hc6, hlbn]⟩
    · intro i hi
      rcases List.mem_cons.mp hi with rfl | hi'
      · rw [hc3 i hfT, hnf]
      · rw [hc2 i hi', hnn i (fun he => hfT (he ▸ hi'))]
    · intro j hj
      have hjf : j ≠ f := fun he => hj (he ▸ List.mem_cons_self f T)
      have hjT : j ∉ T := fun hm => hj (List.mem_cons_of_mem f hm)
      rw [hc3 j hjT, hnn j hjf]
    · intro b' hb'
      rw [hc4 b' hb', hbn b' hb']

/-! ### Invariant preservation by the public operations -/

theorem nodup_snoc {L : List Nat} {i : Nat} (h : L.Nodup) (hi : i ∉ L) :
    (L ++ [i]).Nodup :=
  List.Nodup.append h (List.nodup_singleton i)
    (fun a ha hae => hi ((List.mem_singleton.mp hae) ▸ ha))

/-- A set `last` pointer decomposes a well-formed chain as `M ++ [l]`. -/
theorem BaseInv.last_decomp {st : State α} {b l : Nat} {L : List Nat}
    (h : BaseInv st b L) (hl : (getBase st b).last = some l) :
    ∃ M, L = M ++ [l] ∧ chainSeg st (getBase st b).first M (some l) ∧
      (getNode st l).next = none ∧ l ∉ M := by
  have hgl : L.getLast? = some l := by rw [← h.lastEq, hl]
  have hne : L ≠ [] := by rintro rfl; simp at hgl
  have hgl' : L.getLast hne = l := by
    rw [List.getLast?_eq_getLast L hne] at hgl
    exact Option.some.inj hgl
  have hdec : L.dropLast ++ [l] = L := by
    rw [← hgl', List.dropLast_append_getLast]
  refine ⟨L.dropLast, hdec.symm, ?_, ?_, ?_⟩
  · have hc := h.chain
    rw [← hdec] at hc
    obtain ⟨m, h1, h2⟩ := chainSeg_append.mp hc
    obtain ⟨hm, _⟩ := chainSeg_cons.mp h2
    rw [← hm]
    exact h1
  · have hc := h.chain
    rw [← hdec] at hc
    obtain ⟨m, h1, h2⟩ := chainSeg_append.mp hc
    obtain ⟨hm, h3⟩ := chainSeg_cons.mp h2
    exact chainSeg_nil.mp h3
  · have hnd := h.nodup
    rw [← hdec] at hnd
    intro hm
    exact List.disjoint_of_nodup_append hnd hm (List.mem_singleton.mpr rfl)

/-- A nil `last` pointer forces the empty chain. -/
theorem BaseInv.last_none {st : State α} {b : Nat} {L : List Nat}
    (h : BaseInv st b L) (hl : (getBase st b).last = none) : L = [] := by
  have := h.lastEq
  rw [hl] at this
  exact List.getLast?_eq_none_iff.mp this.symm

theorem Inv_initState (α : Type) (k : Nat) : Inv (initState α k) := by
  intro b _
  refine ⟨[], ?_, by simp, List.nodup_nil, by simp, ?_⟩
  · rw [getBase_initState]
    exact chainSeg_nil.mpr rfl
  · rw [getBase_initState]
    rfl

theorem Inv_allocNode {st : State α} (h : Inv st) : Inv (allocNode st) := by
  intro b hb
  obtain ⟨L, hL⟩ := h b (by simpa using hb)
  exact ⟨L, hL.congr (by simp) (by simp) (fun j => by simp) (fun j => by simp)⟩

/-- `SetValue` only touches the payload field. -/
theorem SetValue_fields (st : State α) (i : Nat) (v : α) (j : Nat) :
    (getNode (List_node.SetValue st (some i) v).1 j).next = (getNode st j).next ∧
    (getNode (List_node.SetValue st (some i) v).1 j).base = (getNode st j).base := by
  show (getNode (setNode st i _) j).next = _ ∧ (getNode (setNode st i _) j).base = _
  rw [getNode_setNode]
  split
  · next hc =>
    obtain ⟨rfl, -⟩ := hc
    exact ⟨rfl, rfl⟩
  · exact ⟨rfl, rfl⟩

theorem Inv_SetValue {st : State α} (h : Inv st) (i : Nat) (v : α) :
    Inv (List_node.SetValue st (some i) v).1 := by
  intro b hb
  have hb' : b < st.bases.length := by
    simpa [List_node.SetValue] using hb
  obtain ⟨L, hL⟩ := h b hb'
  refine ⟨L, hL.congr rfl ?_ (fun j => (SetValue_fields st i v j).1)
    (fun j => (SetValue_fields st i v j).2)⟩
  simp [List_node.SetValue]

/-- The already-owned error path of `Append` leaves the state unchanged. -/
theorem Append_owned_eq {st : State α} {b i : Nat} (h : (getNode st i).base ≠ none) :
    List_base.Append st (some b) (some i) = (st, some .alreadyOwned) := by
  simp [List_base.Append, h]

theorem Append_free_none {st : State α} {b i : Nat} (hbase : (getNode st i).base = none)
    (hlast : (getBase st b).last = none) :
    List_base.Append st (some b) (some i) =
      (setBase (setNode st i { getNode st i with base := some b, next := none }) b
        { getBase st b with first := some i, last := some i }, none) := by
  simp only [List_base.Append, hbase, ne_eq, not_true_eq_false, ite_false, getBase_setNode,
    hlast, not_false_eq_true, if_false]

theorem Append_free_some {st : State α} {b i l : Nat} (hbase : (getNode st i).base = none)
    (hlast : (getBase st b).last = some l) :
    List_base.Append st (some b) (some i) =
      (setBase
        (setNode (setNode st i { getNode st i with base := some b, next := none }) l
          { getNode (setNode st i { getNode st i with base := some b, next := none }) l with
            next := some i }) b
        { getBase st b with last := some i }, none) := by
  simp only [List_base.Append, hbase, ne_eq, not_true_eq_false, ite_false, getBase_setNode,
    hlast, not_false_eq_true, if_false]

theorem Inv_Append {st : State α} (h : Inv st) {b i : Nat}
    (hb : b < st.bases.length) (hi : i < st.nodes.length) :
    Inv (List_base.Append st (some b) (some i)).1 := by
  by_cases hbase : (getNode st i).base = none
  case neg =>
    rw [Append_owned_eq hbase]
    exact h
  case pos =>
    obtain ⟨L, hL⟩ := h b hb
    have hiL : i ∉ L := fun hm => by
      have hob := hL.owned i hm
      rw [hbase] at hob
      cases hob
    cases hlast : (getBase st b).last with
    | none =>
      have hLnil : L = [] := hL.last_none hlast
      rw [Append_free_none hbase hlast]
      intro b' hb'
      have hb'' : b' < st.bases.length := by simpa using hb'
      by_cases hbb : b' = b
      · subst hbb
        refine ⟨[i], ?_, ?_, List.nodup_singleton i, ?_, ?_⟩
        · rw [show getBase (setBase (setNode st i { getNode st i with base := some b', next := none }) b'
            { getBase st b' with first := some i, last := some i }) b' =
              { getBase st b' with first := some i, last := some i } from
            getBase_setBase_self _ _ _ (by simpa using hb)]
          refine chainSeg_cons.mpr ⟨rfl, ?_⟩
          have hni : getNode (setBase (setNode st i { getNode st i with base := some b', next := none }) b'
              { getBase st b' with first := some i, last := some i }) i =
              { getNode st i with base := some b', next := none } := by
            rw [getNode_setBase, getNode_setNode_self _ _ _ hi]
          rw [hni]
          exact chainSeg_nil.mpr rfl
        · intro j hj
          rw [List.mem_singleton.mp hj]
          simpa using hi
        · intro j hj
          rw [List.mem_singleton.mp hj]
          have : getNode (setBase (setNode st i { getNode st i with base := some b', next := none }) b'
              { getBase st b' with first := some i, last := some i }) i =
              { getNode st i with base := some b', next := none } := by
            rw [getNode_setBase, getNode_setNode_self _ _ _ hi]
          rw [this]
        · rw [show getBase (setBase (setNode st i { getNode st i with base := some b', next := none }) b'
            { getBase st b' with first := some i, last := some i }) b' =
              { getBase st b' with first := some i, last := some i } from
            getBase_setBase_self _ _ _ (by simpa using hb)]
          rfl
      · obtain ⟨L', hL'⟩ := h b' hb''
        refine ⟨L', hL'.frame ?_ (by simp) ?_⟩
        · rw [getBase_setBase_ne _ _ (fun he => hbb he.symm), getBase_setNode]
        · intro j hj
          have hjb := hL'.owned j hj
          have hji : j ≠ i := fun he => by
            rw [he, hbase] at hjb
            cases hjb
          rw [getNode_setBase, getNode_setNode_ne _ _ (fun he => hji he.symm)]
    | some l =>
      obtain ⟨M, hLM, hsegM, hnl, hlM⟩ := hL.last_decomp hlast
      have hlL : l ∈ L := by rw [hLM]; simp
      have hlval : l < st.nodes.length := hL.valid l hlL
      have hil : i ≠ l := fun he => hiL (he ▸ hlL)
      rw [Append_free_some hbase hlast]
      set st1 := setNode st i { getNode st i with base := some b, next := none } with hst1
      set stn := setBase (setNode st1 l { getNode st1 l with next := some i }) b
        { getBase st b with last := some i } with hstn
      -- pointwise facts about the new state
      have hlen_n : stn.nodes.length = st.nodes.length := by simp [hstn, hst1]
      have hlen_b : stn.bases.length = st.bases.length := by simp [hstn, hst1]
      have hli : l ≠ i := fun he => hil he.symm
      have hn_i : getNode stn i = { getNode st i with base := some b, next := none } := by
        simp [hstn, hst1, getNode_setNode, hi, hli]
      have hn_l : getNode stn l = { getNode st l with next := some i } := by
        simp [hstn, hst1, getNode_setNode, hlval, hil]
      have hn_other : ∀ j, j ≠ i → j ≠ l → getNode stn j = getNode st j := by
        intro j hji hjl
        have hij : i ≠ j := fun he => hji he.symm
        have hlj : l ≠ j := fun he => hjl he.symm
        simp [hstn, hst1, getNode_setNode, hij, hlj]
      have hgb_b : getBase stn b = { getBase st b with last := some i } := by
        rw [hstn]
        exact getBase_setBase_self _ _ _ (by simp [hst1]; exact hb)
      have hgb_other : ∀ b', b' ≠ b → getBase stn b' = getBase st b' := by
        intro b' hbb
        rw [hstn, getBase_setBase_ne _ _ (fun he => hbb he.symm), getBase_setNode, getBase_setNode]
      intro b' hb'
      have hb'' : b' < st.bases.length := by rw [← hlen_b]; exact hb'
      by_cases hbb : b' = b
      · subst hbb
        refine ⟨L ++ [i], ?_, ?_, nodup_snoc hL.nodup hiL, ?_, ?_⟩
        · -- the chain is the old chain with i appended
          rw [hgb_b]
          show chainSeg stn (getBase st b').first (L ++ [i]) none
          have hLM2 : L ++ [i] = M ++ [l, i] := by
            rw [hLM, List.append_assoc]
            rfl
          rw [hLM2]
          refine chainSeg_append.mpr ⟨some l, ?_, ?_⟩
          · refine chainSeg_congr (fun j hj => ?_) hsegM
            have hjM : j ∈ M := hj
            have hji : j ≠ i := fun he => hiL (by rw [← he, hLM]; exact List.mem_append_left _ hjM)
            have hjl : j ≠ l := fun he => hlM (he ▸ hjM)
            rw [hn_other j hji hjl]
          · refine chainSeg_cons.mpr ⟨rfl, ?_⟩
            rw [hn_l]
            show chainSeg stn (some i) [i] none
            refine chainSeg_cons.mpr ⟨rfl, ?_⟩
            rw [hn_i]
            exact chainSeg_nil.mpr rfl
        · intro j hj
          rw [hlen_n]
          rcases List.mem_append.mp hj with hj' | hj'
          · exact hL.valid j hj'
          · rw [List.mem_singleton.mp hj']
            exact hi
        · intro j hj
          rcases List.mem_append.mp hj with hj' | hj'
          · rw [hLM] at hj'
            rcases List.mem_append.mp hj' with hj'' | hj''
            · have hji : j ≠ i := fun he => hiL (by rw [← he, hLM]; exact List.mem_append_left _ hj'')
              have hjl : j ≠ l := fun he => hlM (he ▸ hj'')
              rw [hn_other j hji hjl]
              exact hL.owned j (by rw [hLM]; exact List.mem_append_left _ hj'')
            · rw [List.mem_singleton.mp hj'', hn_l]
              show (getNode st l).base = some b'
              exact hL.owned l hlL
          · rw [List.mem_singleton.mp hj', hn_i]
        · rw [hgb_b, List.getLast?_concat]
      · obtain ⟨L', hL'⟩ := h b' hb''
        refine ⟨L', hL'.frame (hgb_other b' hbb) (by rw [hlen_n]) ?_⟩
        intro j hj
        have hjb := hL'.owned j hj
        have hji : j ≠ i := fun he => by
          rw [he, hbase] at hjb
          cases hjb
        have hjl : j ≠ l := fun he => by
          rw [he, hL.owned l hlL] at hjb
          exact hbb (Option.some.inj hjb).symm
        exact hn_other j hji hjl

/-- The already-owned error path of `Prepend` leaves the state unchanged. -/
theorem Prepend_owned_eq {st : State α} {b i : Nat} (h : (getNode st i).base ≠ none) :
    List_base.Prepend st (some b) (some i) = (st, some .alreadyOwned) := by
  simp [List_base.Prepend, h]

theorem Prepend_free_none {st : State α} {b i : Nat} (hb : b < st.bases.length)
    (hbase : (getNode st i).base = none) (hlast : (getBase st b).last = none) :
    List_base.Prepend st (some b) (some i) =
      (setBase (setNode st i { getNode st i with base := some b, next := (getBase st b).first }) b
        ⟨some i, some i⟩, none) := by
  have h2 : getBase (setBase (setNode st i
      ⟨(getBase st b).first, some b, (getNode st i).value⟩) b
      ⟨some i, none⟩) b = ⟨some i, none⟩ :=
    getBase_setBase_self _ _ _ (by simpa using hb)
  simp only [List_base.Prepend, hbase, ne_eq, not_true_eq_false, ite_false, getBase_setNode,
    not_false_eq_true, if_false, hlast, h2, setBase_setBase, if_true]

theorem Prepend_free_some {st : State α} {b i l : Nat} (hb : b < st.bases.length)
    (hbase : (getNode st i).base = none) (hlast : (getBase st b).last = some l) :
    List_base.Prepend st (some b) (some i) =
      (setBase (setNode st i { getNode st i with base := some b, next := (getBase st b).first }) b
        { getBase st b with first := some i }, none) := by
  have h2 : getBase (setBase (setNode st i
      ⟨(getBase st b).first, some b, (getNode st i).value⟩) b
      ⟨some i, some l⟩) b = ⟨some i, some l⟩ :=
    getBase_setBase_self _ _ _ (by simpa using hb)
  simp only [List_base.Prepend, hbase, ne_eq, not_true_eq_false, ite_false, getBase_setNode,
    not_false_eq_true, if_false, hlast, h2, setBase_setBase]
  rw [if_neg (Option.some_ne_none l)]

theorem Inv_Prepend {st : State α} (h : Inv st) {b i : Nat}
    (hb : b < st.bases.length) (hi : i < st.nodes.length) :
    Inv (List_base.Prepend st (some b) (some i)).1 := by
  by_cases hbase : (getNode st i).base = none
  case neg =>
    rw [Prepend_owned_eq hbase]
    exact h
  case pos =>
    obtain ⟨L, hL⟩ := h b hb
    have hiL : i ∉ L := fun hm => by
      have hob := hL.owned i hm
      rw [hbase] at hob
      cases hob
    cases hlast : (getBase st b).last with
    | none =>
      have hLnil : L = [] := hL.last_none hlast
      have hfst : (getBase st b).first = none := by
        have hc := hL.chain
        rw [hLnil] at hc
        exact chainSeg_nil.mp hc
      rw [Prepend_free_none hb hbase hlast]
      set stn := setBase (setNode st i
        { getNode st i with base := some b, next := (getBase st b).first }) b
        ⟨some i, some i⟩ with hstn
      have hn_i : getNode stn i =
          { getNode st i with base := some b, next := (getBase st b).first } := by
        simp [hstn, getNode_setNode, hi]
      have hn_other : ∀ j, j ≠ i → getNode stn j = getNode st j := by
        intro j hji
        have hij : i ≠ j := fun he => hji he.symm
        simp [hstn, getNode_setNode, hij]
      have hgb_b : getBase stn b = ⟨some i, some i⟩ := by
        rw [hstn]
        exact getBase_setBase_self _ _ _ (by simpa using hb)
      intro b' hb'
      have hb'' : b' < st.bases.length := by simpa [hstn] using hb'
      by_cases hbb : b' = b
      · subst hbb
        refine ⟨[i], ?_, ?_, List.nodup_singleton i, ?_, ?_⟩
        · rw [hgb_b]
          refine chainSeg_cons.mpr ⟨rfl, ?_⟩
          rw [hn_i]
          show chainSeg stn (getBase st b').first [] none
          rw [hfst]
          exact chainSeg_nil.mpr rfl
        · intro j hj
          rw [List.mem_singleton.mp hj]
          simpa [hstn] using hi
        · intro j hj
          rw [List.mem_singleton.mp hj, hn_i]
        · rw [hgb_b]
          rfl
      · obtain ⟨L', hL'⟩ := h b' hb''
        refine ⟨L', hL'.frame ?_ (by simp [hstn]) ?_⟩
        · rw [hstn, getBase_setBase_ne _ _ (fun he => hbb he.symm), getBase_setNode]
        · intro j hj
          have hjb := hL'.owned j hj
          have hji : j ≠ i := fun he => by
            rw [he, hbase] at hjb
            cases hjb
          exact hn_other j hji
    | some l =>
      have hLne : L ≠ [] := by
        intro he
        have := hL.lastEq
        rw [he, hlast] at this
        cases this
      rw [Prepend_free_some hb hbase hlast]
      set stn := setBase (setNode st i
        { getNode st i with base := some b, next := (getBase st b).first }) b
        { getBase st b with first := some i } with hstn
      have hn_i : getNode stn i =
          { getNode st i with base := some b, next := (getBase st b).first } := by
        simp [hstn, getNode_setNode, hi]
      have hn_other : ∀ j, j ≠ i → getNode stn j = getNode st j := by
        intro j hji
        have hij : i ≠ j := fun he => hji he.symm
        simp [hstn, getNode_setNode, hij]
      have hgb_b : getBase stn b = { getBase st b with first := some i } := by
        rw [hstn]
        exact getBase_setBase_self _ _ _ (by simpa using hb)
      intro b' hb'
      have hb'' : b' < st.bases.length := by simpa [hstn] using hb'
      by_cases hbb : b' = b
      · subst hbb
        refine ⟨i :: L, ?_, ?_, List.nodup_cons.mpr ⟨hiL, hL.nodup⟩, ?_, ?_⟩
        · rw [hgb_b]
          refine chainSeg_cons.mpr ⟨rfl, ?_⟩
          rw [hn_i]
          show chainSeg stn (getBase st b').first L none
          refine chainSeg_congr (fun j hj => ?_) hL.chain
          have hji : j ≠ i := fun he => hiL (he ▸ hj)
          rw [hn_other j hji]
        · intro j hj
          rcases List.mem_cons.mp hj with rfl | hj'
          · simpa [hstn] using hi
          · have := hL.valid j hj'
            simpa [hstn] using this
        · intro j hj
          rcases List.mem_cons.mp hj with rfl | hj'
          · rw [hn_i]
          · have hji : j ≠ i := fun he => hiL (he ▸ hj')
            rw [hn_other j hji]
            exact hL.owned j hj'
        · rw [hgb_b]
          show (getBase st b').last = (i :: L).getLast?
          rw [hL.lastEq]
          cases L with
          | nil => exact absurd rfl hLne
          | cons x xs => rw [List.getLast?_cons_cons]
      · obtain ⟨L', hL'⟩ := h b' hb''
        refine ⟨L', hL'.frame ?_ (by simp [hstn]) ?_⟩
        · rw [hstn, getBase_setBase_ne _ _ (fun he => hbb he.symm), getBase_setNode]
        · intro j hj
          have hjb := hL'.owned j hj
          have hji : j ≠ i := fun he => by
            rw [he, hbase] at hjb
            cases hjb
          exact hn_other j hji

theorem AppendValue_eq (st : State α) (b : Nat) (v : α) :
    List_base.AppendValue st (some b) v =
      List_base.Append (List_node.SetValue (allocNode st) (some st.nodes.length) v).1
        (some b) (some st.nodes.length) := rfl

theorem Inv_AppendValue {st : State α} (h : Inv st) {b : Nat}
    (hb : b < st.bases.length) (v : α) :
    Inv (List_base.AppendValue st (some b) v).1 := by
  rw [AppendValue_eq]
  refine Inv_Append (Inv_SetValue (Inv_allocNode h) _ v) ?_ ?_
  · simpa [List_node.SetValue] using hb
  · simp [List_node.SetValue]

theorem PrependValue_eq (st : State α) (b : Nat) (v : α) :
    List_base.PrependValue st (some b) v =
      List_base.Prepend (List_node.SetValue (allocNode st) (some st.nodes.length) v).1
        (some b) (some st.nodes.length) := rfl

theorem Inv_PrependValue {st : State α} (h : Inv st) {b : Nat}
    (hb : b < st.bases.length) (v : α) :
    Inv (List_base.PrependValue st (some b) v).1 := by
  rw [PrependValue_eq]
  refine Inv_Prepend (Inv_SetValue (Inv_allocNode h) _ v) ?_ ?_
  · simpa [List_node.SetValue] using hb
  · simp [List_node.SetValue]

theorem Popfirst_nil_eq {st : State α} {b : Nat} (hf : (getBase st b).first = none) :
    List_base.Popfirst st (some b) = (none, st, none) := by
  simp [List_base.Popfirst, hf]

theorem Popfirst_corrupt_eq {st : State α} {b f : Nat} (hf : (getBase st b).first = some f)
    (hl : (getBase st b).last = none) :
    List_base.Popfirst st (some b) = (none, st, some .corruptState) := by
  simp [List_base.Popfirst, hf, hl]

theorem Popfirst_single_eq {st : State α} {b f : Nat} (hb : b < st.bases.length)
    (hf : (getBase st b).first = some f) (hl : (getBase st b).last = some f) :
    List_base.Popfirst st (some b) =
      (some f, setNode (setBase st b ⟨(getNode st f).next, none⟩) f
        ⟨none, none, (getNode st f).value⟩, none) := by
  have h2 : getBase (setBase st b ⟨some f, none⟩) b = ⟨some f, none⟩ :=
    getBase_setBase_self _ _ _ hb
  simp only [List_base.Popfirst, hf, hl, Option.some_ne_none, ite_true, if_true,
    getNode_setBase, h2, setBase_setBase, List_node.unlink]
  simp

theorem Popfirst_multi_eq {st : State α} {b f x : Nat} (hb : b < st.bases.length)
    (hf : (getBase st b).first = some f) (hl : (getBase st b).last = some x) (hxf : x ≠ f) :
    List_base.Popfirst st (some b) =
      (some f, setNode (setBase st b ⟨(getNode st f).next, some x⟩) f
        ⟨none, none, (getNode st f).value⟩, none) := by
  simp only [List_base.Popfirst, hf, hl, hxf, Option.some.injEq, ite_false, if_false,
    getNode_setBase, List_node.unlink]
  simp

/-- Detaching the head of a single-element list preserves the invariant. -/
theorem Inv_detachHead_single {st : State α} (h : Inv st) {b f : Nat}
    (hb : b < st.bases.length) (hf : (getBase st b).first = some f)
    (hl : (getBase st b).last = some f) :
    Inv (setNode (setBase st b ⟨(getNode st f).next, none⟩) f
      ⟨none, none, (getNode st f).value⟩) := by
  obtain ⟨L, hL⟩ := h b hb
  obtain ⟨T, hLT, hchT⟩ := hL.first_some hf
  have hfL : f ∈ L := by rw [hLT]; simp
  have hfval : f < st.nodes.length := hL.valid f hfL
  have hfT : f ∉ T := by
    have := hL.nodup
    rw [hLT] at this
    exact (List.nodup_cons.mp this).1
  have hTnil : T = [] := by
    cases hT : T with
    | nil => rfl
    | cons y ys =>
      exfalso
      have hle := hL.lastEq
      rw [hLT, hT, hl, List.getLast?_cons_cons] at hle
      have hmem : f ∈ y :: ys := List.mem_of_mem_getLast? (by rw [← hle]; simp)
      rw [hT] at hfT
      exact hfT hmem
  have hnx : (getNode st f).next = none := by
    rw [hTnil] at hchT
    exact chainSeg_nil.mp hchT
  set stn := setNode (setBase st b ⟨(getNode st f).next, none⟩) f
    ⟨none, none, (getNode st f).value⟩ with hstn
  have hgb_b : getBase stn b = ⟨none, none⟩ := by
    rw [hstn, getBase_setNode, hnx]
    exact getBase_setBase_self _ _ _ hb
  have hn_other : ∀ j, j ≠ f → getNode stn j = getNode st j := by
    intro j hj
    have hfj : f ≠ j := fun he => hj he.symm
    simp [hstn, getNode_setNode, hfj]
  intro b' hb'
  have hb'' : b' < st.bases.length := by simpa [hstn] using hb'
  by_cases hbb : b' = b
  · subst hbb
    refine ⟨[], ?_, by simp, List.nodup_nil, by simp, ?_⟩
    · rw [hgb_b]
      exact chainSeg_nil.mpr rfl
    · rw [hgb_b]
      rfl
  · obtain ⟨L', hL'⟩ := h b' hb''
    refine ⟨L', hL'.frame ?_ (by simp [hstn]) ?_⟩
    · rw [hstn, getBase_setNode, getBase_setBase_ne _ _ (fun he => hbb he.symm)]
    · intro j hj
      have hjb := hL'.owned j hj
      have hjf : j ≠ f := fun he => by
        rw [he, hL.owned f hfL] at hjb
        exact hbb (Option.some.inj hjb).symm
      exact hn_other j hjf

/-- Detaching the head of a multi-element list preserves the invariant. -/
theorem Inv_detachHead_multi {st : State α} (h : Inv st) {b f x : Nat}
    (hb : b < st.bases.length) (hf : (getBase st b).first = some f)
    (hl : (getBase st b).last = some x) (hxf : x ≠ f) :
    Inv (setNode (setBase st b ⟨(getNode st f).next, some x⟩) f
      ⟨none, none, (getNode st f).value⟩) := by
  obtain ⟨L, hL⟩ := h b hb
  obtain ⟨T, hLT, hchT⟩ := hL.first_some hf
  have hfL : f ∈ L := by rw [hLT]; simp
  have hfval : f < st.nodes.length := hL.valid f hfL
  have hfT : f ∉ T := by
    have := hL.nodup
    rw [hLT] at this
    exact (List.nodup_cons.mp this).1
  have hndT : T.Nodup := by
    have := hL.nodup
    rw [hLT] at this
    exact (List.nodup_cons.mp this).2
  have hTne : T ≠ [] := by
    intro he
    have hle := hL.lastEq
    rw [hLT, he, hl] at hle
    exact hxf (Option.some.inj hle)
  set stn := setNode (setBase st b ⟨(getNode st f).next, some x⟩) f
    ⟨none, none, (getNode st f).value⟩ with hstn
  have hgb_b : getBase stn b = ⟨(getNode st f).next, some x⟩ := by
    rw [hstn, getBase_setNode]
    exact getBase_setBase_self _ _ _ hb
  have hn_other : ∀ j, j ≠ f → getNode stn j = getNode st j := by
    intro j hj
    have hfj : f ≠ j := fun he => hj he.symm
    simp [hstn, getNode_setNode, hfj]
  intro b' hb'
  have hb'' : b' < st.bases.length := by simpa [hstn] using hb'
  by_cases hbb : b' = b
  · subst hbb
    refine ⟨T, ?_, ?_, hndT, ?_, ?_⟩
    · rw [hgb_b]
      show chainSeg stn (getNode st f).next T none
      refine chainSeg_congr (fun j hj => ?_) hchT
      rw [hn_other j (fun he => hfT (he ▸ hj))]
    · intro j hj
      have := hL.valid j (by rw [hLT]; exact List.mem_cons_of_mem f hj)
      simpa [hstn] using this
    · intro j hj
      rw [hn_other j (fun he => hfT (he ▸ hj))]
      exact hL.owned j (by rw [hLT]; exact List.mem_cons_of_mem f hj)
    · rw [hgb_b]
      show some x = T.getLast?
      have hle := hL.lastEq
      rw [hLT, hl] at hle
      cases hT : T with
      | nil => exact absurd hT hTne
      | cons y ys =>
        rw [hT] at hle
        rw [List.getLast?_cons_cons] at hle
        exact hle
  · obtain ⟨L', hL'⟩ := h b' hb''
    refine ⟨L', hL'.frame ?_ (by simp [hstn]) ?_⟩
    · rw [hstn, getBase_setNode, getBase_setBase_ne _ _ (fun he => hbb he.symm)]
    · intro j hj
      have hjb := hL'.owned j hj
      have hjf : j ≠ f := fun he => by
        rw [he, hL.owned f hfL] at hjb
        exact hbb (Option.some.inj hjb).symm
      exact hn_other j hjf

theorem Inv_Popfirst {st : State α} (h : Inv st) {b : Nat} (hb : b < st.bases.length) :
    Inv (List_base.Popfirst st (some b)).2.1 := by
  cases hf : (getBase st b).first with
  | none =>
    rw [Popfirst_nil_eq hf]
    exact h
  | some f =>
    cases hlast' : (getBase st b).last with
    | none =>
      rw [Popfirst_corrupt_eq hf hlast']
      exact h
    | some x =>
      by_cases hxf : x = f
      · subst hxf
        rw [Popfirst_single_eq hb hf hlast']
        exact Inv_detachHead_single h hb hf hlast'
      · rw [Popfirst_multi_eq hb hf hlast' hxf]
        exact Inv_detachHead_multi h hb hf hlast' hxf

theorem Poplast_nil_eq {st : State α} {b : Nat} (hf : (getBase st b).first = none) :
    List_base.Poplast st (some b) = (none, st, none) := by
  simp [List_base.Poplast, hf]

theorem Poplast_corrupt_eq {st : State α} {b f : Nat} (hf : (getBase st b).first = some f)
    (hl : (getBase st b).last = none) :
    List_base.Poplast st (some b) = (none, st, some .corruptState) := by
  simp [List_base.Poplast, hf, hl]

theorem Poplast_single_eq {st : State α} {b f : Nat} (hf : (getBase st b).first = some f)
    (hl : (getBase st b).last = some f) :
    List_base.Poplast st (some b) =
      (some f, setNode (setBase st b ⟨none, none⟩) f
        ⟨none, none, (getNode st f).value⟩, none) := by
  simp only [List_base.Poplast, hf, hl, if_pos, List_node.unlink, getNode_setBase]

theorem Poplast_scan_none_eq {st : State α} {b f l : Nat} (hf : (getBase st b).first = some f)
    (hl : (getBase st b).last = some l) (hlf : l ≠ f)
    (hfind : findAux st (some l) (st.nodes.length + 1) (some f) = none) :
    List_base.Poplast st (some b) = (none, st, some .corruptState) := by
  simp only [List_base.Poplast, hf, hl, hlf, ite_false, if_false, hfind]

theorem Poplast_scan_some_eq {st : State α} {b f l q : Nat} (hf : (getBase st b).first = some f)
    (hl : (getBase st b).last = some l) (hlf : l ≠ f) (hql : q ≠ l)
    (hfind : findAux st (some l) (st.nodes.length + 1) (some f) = some q) :
    List_base.Poplast st (some b) =
      (some l, setNode (setBase (setNode st q ⟨none, (getNode st q).base, (getNode st q).value⟩)
        b ⟨some f, some q⟩) l ⟨none, none, (getNode st l).value⟩, none) := by
  have hqlne : (q = l) = False := by simp [hql]
  simp only [List_base.Poplast, hf, hl, hlf, ite_false, if_false, hfind, List_node.unlink,
    getNode_setBase, getNode_setNode, hqlne, false_and, getBase_setNode]

/-- Detaching the tail node found through the predecessor scan preserves the
invariant.  `q` is the scan result: the first chain node whose `next` is the
tail `l`. -/
theorem Inv_detachTail {st : State α} (h : Inv st) {b f l q : Nat}
    (hb : b < st.bases.length) (hf : (getBase st b).first = some f)
    (hl : (getBase st b).last = some l)
    (hfind : findAux st (some l) (st.nodes.length + 1) (some f) = some q) :
    Inv (setNode (setBase (setNode st q ⟨none, (getNode st q).base, (getNode st q).value⟩)
      b ⟨some f, some q⟩) l ⟨none, none, (getNode st l).value⟩) := by
  obtain ⟨L, hL⟩ := h b hb
  have hchL : chainSeg st (some f) L none := by
    have := hL.chain
    rw [hf] at this
    exact this
  obtain ⟨hqL, hqnext⟩ := findAux_sound hchL hfind
  have hqval : q < st.nodes.length := hL.valid q hqL
  have hlL : l ∈ L := by
    have := hL.lastEq
    rw [hl] at this
    exact List.mem_of_mem_getLast? (by rw [← this]; simp)
  have hlval : l < st.nodes.length := hL.valid l hlL
  obtain ⟨X, Y, hLXY, hsegX, hsegY⟩ := chainSeg_mem_split hchL hqL
  rw [hqnext] at hsegY
  obtain ⟨Z, hYZ, hsegZ⟩ := chainSeg_some hsegY (Or.inr (by
    intro he
    rw [he] at hsegY
    exact absurd (chainSeg_nil.mp hsegY) (by simp)))
  have hZnil : Z = [] := by
    cases hZ : Z with
    | nil => rfl
    | cons y ys =>
      exfalso
      have hle := hL.lastEq
      rw [hl, hLXY, hYZ, hZ] at hle
      have hgl : (X ++ q :: l :: y :: ys).getLast? = (y :: ys).getLast? := by
        rw [List.getLast?_append, List.getLast?_cons_cons, List.getLast?_cons_cons]
        cases hgy : (y :: ys).getLast? with
        | none => exact absurd (List.getLast?_eq_none_iff.mp hgy) (by simp)
        | some w => rfl
      rw [hgl] at hle
      have hmem : l ∈ y :: ys := List.mem_of_mem_getLast? (by rw [← hle]; simp)
      have hnd := hL.nodup
      rw [hLXY, hYZ, hZ] at hnd
      have hnd2 := (List.nodup_append.mp hnd).2.1
      rw [List.nodup_cons] at hnd2
      have hnd3 := hnd2.2
      rw [List.nodup_cons] at hnd3
      exact hnd3.1 hmem
  have hLfin : L = X ++ [q, l] := by
    rw [hLXY, hYZ, hZnil]
  have hql : q ≠ l := by
    have hnd := hL.nodup
    rw [hLfin] at hnd
    have := (List.nodup_append.mp hnd).2.1
    rw [List.nodup_cons] at this
    exact fun he => this.1 (by rw [he]; simp)
  set stn := setNode (setBase (setNode st q ⟨none, (getNode st q).base,
    (getNode st q).value⟩) b ⟨some f, some q⟩) l
    ⟨none, none, (getNode st l).value⟩ with hstn
  have hgb_b : getBase stn b = ⟨some f, some q⟩ := by
    rw [hstn, getBase_setNode]
    exact getBase_setBase_self _ _ _ (by simpa using hb)
  have hlq : l ≠ q := fun he => hql he.symm
  have hn_q : getNode stn q = ⟨none, (getNode st q).base, (getNode st q).value⟩ := by
    simp [hstn, getNode_setNode, hlq, hqval]
  have hn_other : ∀ j, j ≠ q → j ≠ l → getNode stn j = getNode st j := by
    intro j hjq hjl
    have hqj : q ≠ j := fun he => hjq he.symm
    have hlj : l ≠ j := fun he => hjl he.symm
    simp [hstn, getNode_setNode, hqj, hlj]
  have hXnd : (X ++ [q, l]).Nodup := by rw [← hLfin]; exact hL.nodup
  have hqX : q ∉ X := by
    have := List.disjoint_of_nodup_append hXnd
    exact fun hm => this hm (by simp)
  have hlX : l ∉ X := by
    have := List.disjoint_of_nodup_append hXnd
    exact fun hm => this hm (by simp)
  intro b' hb'
  have hb'' : b' < st.bases.length := by simpa [hstn] using hb'
  by_cases hbb : b' = b
  · subst hbb
    refine ⟨X ++ [q], ?_, ?_, ?_, ?_, ?_⟩
    · rw [hgb_b]
      refine chainSeg_append.mpr ⟨some q, ?_, ?_⟩
      · refine chainSeg_congr (fun j hj => ?_) hsegX
        rw [hn_other j (fun he => hqX (he ▸ hj)) (fun he => hlX (he ▸ hj))]
      · refine chainSeg_cons.mpr ⟨rfl, ?_⟩
        rw [hn_q]
        exact chainSeg_nil.mpr rfl
    · intro j hj
      have hjL : j ∈ L := by
        rw [hLfin]
        rcases List.mem_append.mp hj with hj' | hj'
        · exact List.mem_append_left _ hj'
        · exact List.mem_append_right _ (by simpa using Or.inl (List.mem_singleton.mp hj'))
      have := hL.valid j hjL
      simpa [hstn] using this
    · have : (X ++ [q]).Sublist (X ++ [q, l]) := by
        refine List.Sublist.append_left ?_ X
        simp
      exact this.nodup hXnd
    · intro j hj
      rcases List.mem_append.mp hj with hj' | hj'
      · rw [hn_other j (fun he => hqX (he ▸ hj')) (fun he => hlX (he ▸ hj'))]
        exact hL.owned j (by rw [hLfin]; exact List.mem_append_left _ hj')
      · rw [List.mem_singleton.mp hj', hn_q]
        show (getNode st q).base = some b'
        exact hL.owned q hqL
    · rw [hgb_b, List.getLast?_concat]
  · obtain ⟨L', hL'⟩ := h b' hb''
    refine ⟨L', hL'.frame ?_ (by simp [hstn]) ?_⟩
    · rw [hstn, getBase_setNode,
        getBase_setBase_ne _ _ (fun he => hbb he.symm), getBase_setNode]
    · intro j hj
      have hjb := hL'.owned j hj
      have hjq : j ≠ q := fun he => by
        rw [he, hL.owned q hqL] at hjb
        exact hbb (Option.some.inj hjb).symm
      have hjl : j ≠ l := fun he => by
        rw [he, hL.owned l hlL] at hjb
        exact hbb (Option.some.inj hjb).symm
      exact hn_other j hjq hjl

theorem Inv_Poplast {st : State α} (h : Inv st) {b : Nat} (hb : b < st.bases.length) :
    Inv (List_base.Poplast st (some b)).2.1 := by
  cases hf : (getBase st b).first with
  | none =>
    rw [Poplast_nil_eq hf]
    exact h
  | some f =>
    cases hlast' : (getBase st b).last with
    | none =>
      rw [Poplast_corrupt_eq hf hlast']
      exact h
    | some l =>
      by_cases hlf : l = f
      · subst hlf
        rw [Poplast_single_eq hf hlast']
        obtain ⟨L, hL⟩ := h b hb
        obtain ⟨T, hLT, hchT⟩ := hL.first_some hf
        have hlL : l ∈ L := by rw [hLT]; simp
        have hTnil : T = [] := by
          cases hT : T with
          | nil => rfl
          | cons y ys =>
            exfalso
            have hle := hL.lastEq
            rw [hLT, hT, hlast', List.getLast?_cons_cons] at hle
            have hmem : l ∈ y :: ys := List.mem_of_mem_getLast? (by rw [← hle]; simp)
            have hnd := hL.nodup
            rw [hLT, hT] at hnd
            exact (List.nodup_cons.mp hnd).1 hmem
        have hnx : (getNode st l).next = none := by
          rw [hTnil] at hchT
          exact chainSeg_nil.mp hchT
        have heq : (setNode (setBase st b ⟨none, none⟩) l
            ⟨none, none, (getNode st l).value⟩ : State α) =
            setNode (setBase st b ⟨(getNode st l).next, none⟩) l
            ⟨none, none, (getNode st l).value⟩ := by
          rw [hnx]
        rw [heq]
        exact Inv_detachHead_single h hb hf hlast'
      · cases hfind : findAux st (some l) (st.nodes.length + 1) (some f) with
        | none =>
          rw [Poplast_scan_none_eq hf hlast' hlf hfind]
          exact h
        | some q =>
          have hql : q ≠ l := by
            obtain ⟨L, hL⟩ := h b hb
            have hchL : chainSeg st (some f) L none := by
              have := hL.chain
              rw [hf] at this
              exact this
            obtain ⟨hqL, hqnext⟩ := findAux_sound hchL hfind
            intro he
            rw [he] at hqnext
            -- l.next = some l contradicts nodup chains
            obtain ⟨X, Y, hLXY, hsegX, hsegY⟩ := chainSeg_mem_split hchL (he ▸ hqL)
            rw [hqnext] at hsegY
            obtain ⟨Z, hYZ, _⟩ := chainSeg_some hsegY (Or.inr (by
              intro hYe
              rw [hYe] at hsegY
              exact absurd (chainSeg_nil.mp hsegY) (by simp)))
            have hnd := hL.nodup
            rw [hLXY, hYZ] at hnd
            have := (List.nodup_append.mp hnd).2.1
            rw [List.nodup_cons] at this
            exact this.1 (by simp)
          rw [Poplast_scan_some_eq hf hlast' hlf hql hfind]
          exact Inv_detachTail h hb hf hlast' hfind

theorem Remove_empty_eq {st : State α} {b qi : Nat} (hf : (getBase st b).first = none) :
    List_base.Remove st (some b) (some qi) = (none, st, none) := by
  simp [List_base.Remove, hf]

theorem Remove_corrupt_eq {st : State α} {b f qi : Nat} (hf : (getBase st b).first = some f)
    (hl : (getBase st b).last = none) :
    List_base.Remove st (some b) (some qi) = (none, st, some .corruptState) := by
  simp [List_base.Remove, hf, hl]

theorem Remove_notowner_eq {st : State α} {b f x qi : Nat} (hf : (getBase st b).first = some f)
    (hl : (getBase st b).last = some x) (hqb : (getNode st qi).base ≠ some b) :
    List_base.Remove st (some b) (some qi) = (none, st, some .notOwner) := by
  simp [List_base.Remove, hf, hl, hqb]

theorem Remove_head_single_eq {st : State α} {b qi : Nat} (hb : b < st.bases.length)
    (hf : (getBase st b).first = some qi) (hl : (getBase st b).last = some qi)
    (hqb : (getNode st qi).base = some b) :
    List_base.Remove st (some b) (some qi) =
      (some qi, setNode (setBase st b ⟨(getNode st qi).next, none⟩) qi
        ⟨none, none, (getNode st qi).value⟩, none) := by
  have h2 : getBase (setBase st b ⟨some qi, none⟩) b = ⟨some qi, none⟩ :=
    getBase_setBase_self _ _ _ hb
  simp only [List_base.Remove, hf, hl, hqb, ne_eq, not_true_eq_false, ite_false, if_false,
    Option.some_ne_none, ite_true, if_true, getNode_setBase, h2, setBase_setBase,
    List_node.unlink]

theorem Remove_head_multi_eq {st : State α} {b x qi : Nat} (hb : b < st.bases.length)
    (hf : (getBase st b).first = some qi) (hl : (getBase st b).last = some x) (hxq : x ≠ qi)
    (hqb : (getNode st qi).base = some b) :
    List_base.Remove st (some b) (some qi) =
      (some qi, setNode (setBase st b ⟨(getNode st qi).next, some x⟩) qi
        ⟨none, none, (getNode st qi).value⟩, none) := by
  simp only [List_base.Remove, hf, hl, hqb, ne_eq, not_true_eq_false, ite_false, if_false,
    hxq, Option.some.injEq, getNode_setBase, List_node.unlink]
  simp

theorem Remove_scan_none_eq {st : State α} {b f x qi : Nat} (hf : (getBase st b).first = some f)
    (hl : (getBase st b).last = some x) (hfq : f ≠ qi) (hqb : (getNode st qi).base = some b)
    (hfind : findAux st (some qi) (st.nodes.length + 1) (some f) = none) :
    List_base.Remove st (some b) (some qi) = (none, st, some .corruptState) := by
  simp only [List_base.Remove, hf, hl, hqb, ne_eq, not_true_eq_false, ite_false, if_false,
    hfq, hfind]
  simp

theorem Remove_scan_tail_eq {st : State α} {b f qi pn : Nat} (hb : b < st.bases.length)
    (hf : (getBase st b).first = some f) (hl : (getBase st b).last = some qi)
    (hfq : f ≠ qi) (hqb : (getNode st qi).base = some b) (hpq : pn ≠ qi)
    (hfind : findAux st (some qi) (st.nodes.length + 1) (some f) = some pn) :
    List_base.Remove st (some b) (some qi) =
      (some qi, setNode (setBase (setNode st pn
        ⟨(getNode st qi).next, (getNode st pn).base, (getNode st pn).value⟩) b
        ⟨some f, some pn⟩) qi ⟨none, none, (getNode st qi).value⟩, none) := by
  have hpqe : (pn = qi) = False := by simp [hpq]
  simp only [List_base.Remove, hf, hl, hqb, ne_eq, not_true_eq_false, ite_false, if_false,
    hfq, hfind, getBase_setNode, Option.some.injEq, ite_true, if_true, List_node.unlink,
    getNode_setBase, getNode_setNode, hpqe, false_and]
  simp

theorem Remove_scan_mid_eq {st : State α} {b f x qi pn : Nat}
    (hf : (getBase st b).first = some f) (hl : (getBase st b).last = some x)
    (hfq : f ≠ qi) (hxq : x ≠ qi) (hqb : (getNode st qi).base = some b) (hpq : pn ≠ qi)
    (hfind : findAux st (some qi) (st.nodes.length + 1) (some f) = some pn) :
    List_base.Remove st (some b) (some qi) =
      (some qi, setNode (setNode st pn
        ⟨(getNode st qi).next, (getNode st pn).base, (getNode st pn).value⟩) qi
        ⟨none, none, (getNode st qi).value⟩, none) := by
  have hpqe : (pn = qi) = False := by simp [hpq]
  simp only [List_base.Remove, hf, hl, hqb, ne_eq, not_true_eq_false, ite_false, if_false,
    hfq, hxq, hfind, getBase_setNode, Option.some.injEq, List_node.unlink,
    getNode_setBase, getNode_setNode, hpqe, false_and]
  simp

theorem Inv_Remove {st : State α} (h : Inv st) {b i : Nat}
    (hb : b < st.bases.length) (hi : i < st.nodes.length) :
    Inv (List_base.Remove st (some b) (some i)).2.1 := by
  cases hf : (getBase st b).first with
  | none =>
    rw [Remove_empty_eq hf]
    exact h
  | some f =>
    cases hl : (getBase st b).last with
    | none =>
      rw [Remove_corrupt_eq hf hl]
      exact h
    | some x =>
      by_cases hqb : (getNode st i).base = some b
      case neg =>
        rw [Remove_notowner_eq hf hl hqb]
        exact h
      case pos =>
        by_cases hfq : f = i
        · subst hfq
          by_cases hxq : x = f
          · subst hxq
            rw [Remove_head_single_eq hb hf hl hqb]
            exact Inv_detachHead_single h hb hf hl
          · rw [Remove_head_multi_eq hb hf hl hxq hqb]
            exact Inv_detachHead_multi h hb hf hl hxq
        · -- interior or tail removal via the predecessor scan
          obtain ⟨L, hL⟩ := h b hb
          have hchL : chainSeg st (some f) L none := by
            have := hL.chain
            rw [hf] at this
            exact this
          cases hfind : findAux st (some i) (st.nodes.length + 1) (some f) with
          | none =>
            rw [Remove_scan_none_eq hf hl hfq hqb hfind]
            exact h
          | some pn =>
            obtain ⟨hpnL, hpnnext⟩ := findAux_sound hchL hfind
            have hpnval : pn < st.nodes.length := hL.valid pn hpnL
            obtain ⟨X, Y, hLXY, hsegX, hsegY⟩ := chainSeg_mem_split hchL hpnL
            rw [hpnnext] at hsegY
            obtain ⟨Z, hYZ, hsegZ⟩ := chainSeg_some hsegY (Or.inr (by
              intro he
              rw [he] at hsegY
              exact absurd (chainSeg_nil.mp hsegY) (by simp)))
            have hLfin : L = X ++ pn :: i :: Z := by rw [hLXY, hYZ]
            have hnd : (X ++ pn :: i :: Z).Nodup := by rw [← hLfin]; exact hL.nodup
            have hndtl := (List.nodup_append.mp hnd).2.1
            have hpni : pn ≠ i := by
              rw [List.nodup_cons] at hndtl
              exact fun he => hndtl.1 (by rw [he]; simp)
            have hiZ : i ∉ Z := by
              have := (List.nodup_cons.mp hndtl).2
              exact (List.nodup_cons.mp this).1
            have hpnZ : pn ∉ Z := by
              rw [List.nodup_cons] at hndtl
              exact fun hm => hndtl.1 (by simp [hm])
            have hdisj := List.disjoint_of_nodup_append hnd
            have hpnX : pn ∉ X := fun hm => hdisj hm (by simp)
            have hiX : i ∉ X := fun hm => hdisj hm (by simp)
            by_cases hxq : x = i
            · -- i is the tail: Z = [] and this is exactly a tail detach
              subst hxq
              have hZnil : Z = [] := by
                cases hZ : Z with
                | nil => rfl
                | cons y ys =>
                  exfalso
                  have hle := hL.lastEq
                  rw [hl, hLfin, hZ] at hle
                  have hgl : (X ++ pn :: x :: y :: ys).getLast? = (y :: ys).getLast? := by
                    rw [List.getLast?_append, List.getLast?_cons_cons, List.getLast?_cons_cons]
                    cases hgy : (y :: ys).getLast? with
                    | none => exact absurd (List.getLast?_eq_none_iff.mp hgy) (by simp)
                    | some w => rfl
                  rw [hgl] at hle
                  have hmem : x ∈ y :: ys := List.mem_of_mem_getLast? (by rw [← hle]; simp)
                  rw [hZ] at hiZ
                  exact hiZ hmem
              have hnx : (getNode st x).next = none := by
                rw [hZnil] at hsegZ
                exact chainSeg_nil.mp hsegZ
              rw [Remove_scan_tail_eq hb hf hl hfq hqb hpni hfind]
              have heq : (setNode (setBase (setNode st pn
                  ⟨(getNode st x).next, (getNode st pn).base, (getNode st pn).value⟩) b
                  ⟨some f, some pn⟩) x ⟨none, none, (getNode st x).value⟩ : State α) =
                  setNode (setBase (setNode st pn
                  ⟨none, (getNode st pn).base, (getNode st pn).value⟩) b
                  ⟨some f, some pn⟩) x ⟨none, none, (getNode st x).value⟩ := by
                rw [hnx]
              rw [heq]
              exact Inv_detachTail h hb hf hl hfind
            · -- i is interior: Z is nonempty and `last` needs no update
              have hZne : Z ≠ [] := by
                intro he
                have hle := hL.lastEq
                rw [hl, hLfin, he] at hle
                have : (X ++ [pn, i]).getLast? = some i := by
                  have : X ++ pn :: i :: [] = X ++ [pn, i] := rfl
                  rw [List.getLast?_append]
                  rfl
                rw [this] at hle
                exact hxq (Option.some.inj hle)
              rw [Remove_scan_mid_eq hf hl hfq hxq hqb hpni hfind]
              set stn := setNode (setNode st pn
                ⟨(getNode st i).next, (getNode st pn).base, (getNode st pn).value⟩) i
                ⟨none, none, (getNode st i).value⟩ with hstn
              have hipn : i ≠ pn := fun he => hpni he.symm
              have hn_pn : getNode stn pn =
                  ⟨(getNode st i).next, (getNode st pn).base, (getNode st pn).value⟩ := by
                simp [hstn, getNode_setNode, hipn, hpnval]
              have hn_i : getNode stn i = ⟨none, none, (getNode st i).value⟩ := by
                simp [hstn, getNode_setNode, hi]
              have hn_other : ∀ j, j ≠ pn → j ≠ i → getNode stn j = getNode st j := by
                intro j hjpn hji
                have hpnj : pn ≠ j := fun he => hjpn he.symm
                have hij : i ≠ j := fun he => hji he.symm
                simp [hstn, getNode_setNode, hpnj, hij]
              have hgb : ∀ b', getBase stn b' = getBase st b' := by
                intro b'
                rw [hstn, getBase_setNode, getBase_setNode]
              intro b' hb'
              have hb'' : b' < st.bases.length := by simpa [hstn] using hb'
              by_cases hbb : b' = b
              · subst hbb
                refine ⟨X ++ pn :: Z, ?_, ?_, ?_, ?_, ?_⟩
                · rw [hgb, hf]
                  refine chainSeg_append.mpr ⟨some pn, ?_, ?_⟩
                  · refine chainSeg_congr (fun j hj => ?_) hsegX
                    rw [hn_other j (fun he => hpnX (he ▸ hj)) (fun he => hiX (he ▸ hj))]
                  · refine chainSeg_cons.mpr ⟨rfl, ?_⟩
                    rw [hn_pn]
                    show chainSeg stn (getNode st i).next Z none
                    refine chainSeg_congr (fun j hj => ?_) hsegZ
                    rw [hn_other j (fun he => hpnZ (he ▸ hj)) (fun he => hiZ (he ▸ hj))]
                · intro j hj
                  have hjL : j ∈ L := by
                    rw [hLfin]
                    rcases List.mem_append.mp hj with hj' | hj'
                    · exact List.mem_append_left _ hj'
                    · rcases List.mem_cons.mp hj' with rfl | hj''
                      · exact List.mem_append_right _ (by simp)
                      · exact List.mem_append_right _ (by simp [hj''])
                  have := hL.valid j hjL
                  simpa [hstn] using this
                · have hsub : (X ++ pn :: Z).Sublist (X ++ pn :: i :: Z) := by
                    refine List.Sublist.append_left ?_ X
                    refine List.Sublist.cons₂ pn ?_
                    exact List.sublist_cons_self i Z
                  exact hsub.nodup hnd
                · intro j hj
                  rcases List.mem_append.mp hj with hj' | hj'
                  · rw [hn_other j (fun he => hpnX (he ▸ hj')) (fun he => hiX (he ▸ hj'))]
                    exact hL.owned j (by rw [hLfin]; exact List.mem_append_left _ hj')
                  · rcases List.mem_cons.mp hj' with rfl | hj''
                    · rw [hn_pn]
                      exact hL.owned _ hpnL
                    · rw [hn_other j (fun he => hpnZ (he ▸ hj'')) (fun he => hiZ (he ▸ hj''))]
                      refine hL.owned j ?_
                      rw [hLfin]
                      exact List.mem_append_right _ (by simp [hj''])
                · rw [hgb, hl]
                  show some x = (X ++ pn :: Z).getLast?
                  have hle := hL.lastEq
                  rw [hl, hLfin] at hle
                  rw [hle]
                  cases hZ : Z with
                  | nil => exact absurd hZ hZne
                  | cons y ys =>
                    simp [List.getLast?_append, List.getLast?_cons_cons]
              · obtain ⟨L', hL'⟩ := h b' hb''
                refine ⟨L', hL'.frame (hgb b') (by simp [hstn]) ?_⟩
                intro j hj
                have hjb := hL'.owned j hj
                have hjpn : j ≠ pn := fun he => by
                  rw [he, hL.owned pn hpnL] at hjb
                  exact hbb (Option.some.inj hjb).symm
                have hji : j ≠ i := fun he => by
                  rw [he, hL.owned i (by rw [hLfin]; exact List.mem_append_right _ (by simp))] at hjb
                  exact hbb (Option.some.inj hjb).symm
                exact hn_other j hjpn hji

theorem Clear_nil_eq {st : State α} {b : Nat} (hf : (getBase st b).first = none) :
    List_base.Clear st (some b) = (st, none) := by
  simp [List_base.Clear, hf]

theorem Clear_corrupt_eq {st : State α} {b f : Nat} (hf : (getBase st b).first = some f)
    (hl : (getBase st b).last = none) :
    List_base.Clear st (some b) = (st, some .corruptState) := by
  simp [List_base.Clear, hf, hl]

theorem Clear_run_eq {st : State α} {b f x : Nat} (hf : (getBase st b).first = some f)
    (hl : (getBase st b).last = some x) :
    List_base.Clear st (some b) = (clearAux st b (st.nodes.length + 1), none) := by
  simp [List_base.Clear, hf, hl]

theorem Inv_Clear {st : State α} (h : Inv st) {b : Nat} (hb : b < st.bases.length) :
    Inv (List_base.Clear st (some b)).1 := by
  cases hf : (getBase st b).first with
  | none =>
    rw [Clear_nil_eq hf]
    exact h
  | some f =>
    cases hl : (getBase st b).last with
    | none =>
      rw [Clear_corrupt_eq hf hl]
      exact h
    | some x =>
      obtain ⟨L, hL⟩ := h b hb
      rw [Clear_run_eq hf hl]
      have hfuel : L.length < st.nodes.length + 1 :=
        Nat.lt_succ_of_le (nodup_length_le hL.nodup hL.valid)
      obtain ⟨hc1, hc2, hc3, hc4, hc5, hc6⟩ :=
        clearAux_spec hb hL.chain hL.lastEq hL.valid hL.nodup hfuel
      intro b' hb'
      have hb'' : b' < st.bases.length := by rw [← hc6]; exact hb'
      by_cases hbb : b' = b
      · subst hbb
        refine ⟨[], ?_, by simp, List.nodup_nil, by simp, ?_⟩
        · rw [hc1]
          exact chainSeg_nil.mpr rfl
        · rw [hc1]
          rfl
      · obtain ⟨L', hL'⟩ := h b' hb''
        refine ⟨L', hL'.frame (hc4 b' hbb) (by rw [hc5]) ?_⟩
        intro j hj
        have hjb := hL'.owned j hj
        have hjL : j ∉ L := fun hm => by
          rw [hL.owned j hm] at hjb
          exact hbb (Option.some.inj hjb).symm
        exact hc3 j hjL

/-- Every reachable state satisfies the structural invariant. -/
theorem Reachable_inv {α : Type} {st : State α} (h : Reachable st) : Inv st := by
  induction h with
  | init k => exact Inv_initState α k
  | alloc _ ih => exact Inv_allocNode ih
  | setValue i v _ hi ih => exact Inv_SetValue ih i v
  | append b i _ hb hi ih => exact Inv_Append ih hb hi
  | appendValue b v _ hb ih => exact Inv_AppendValue ih hb v
  | prepend b i _ hb hi ih => exact Inv_Prepend ih hb hi
  | prependValue b v _ hb ih => exact Inv_PrependValue ih hb v
  | popfirst b _ hb ih => exact Inv_Popfirst ih hb
  | poplast b _ hb ih => exact Inv_Poplast ih hb
  | remove b i _ hb hi ih => exact Inv_Remove ih hb hi
  | clear b _ hb ih => exact Inv_Clear ih hb

/-! ### The claims -/

/-- Claim C1 (corrected): against the claim, when `first` is absent `Popfirst`
returns (absent, no error) even if `last` is present — the concrete corrupt
heap `stC1` has `first` nil and `last` set, yet the call reports no error,
refuting "fails with CorruptState if `first` is absent but `last` is not". -/
theorem c1_counterexample :
    (getBase stC1 0).first = none ∧ (getBase stC1 0).last = some 0 ∧
    List_base.Popfirst stC1 (some 0) = (none, stC1, none) := by
  decide

/-- Claim C1 (amended): `Popfirst` returns (absent, no error) whenever `first`
is absent — including the corrupt state where `last` is still set — and fails
with CorruptState in the mirrored corruption, `first` present but `last`
absent. -/
theorem c1_popfirst_empty_and_corrupt {α : Type} (st : State α) (b : Nat) :
    ((getBase st b).first = none → List_base.Popfirst st (some b) = (none, st, none)) ∧
    (∀ f, (getBase st b).first = some f → (getBase st b).last = none →
      List_base.Popfirst st (some b) = (none, st, some Err.corruptState)) :=
  ⟨fun hf => Popfirst_nil_eq hf, fun _ hf hl => Popfirst_corrupt_eq hf hl⟩

theorem c1_witness :
    List_base.Popfirst stC1 (some 0) = (none, stC1, none) ∧
    List_base.Popfirst stC1b (some 0) = (none, stC1b, some Err.corruptState) :=
  ⟨(c1_popfirst_empty_and_corrupt stC1 0).1 (by decide),
   (c1_popfirst_empty_and_corrupt stC1b 0).2 0 (by decide) (by decide)⟩

/-- Claim C2 (corrected): on a nil receiver, `Empty`, `GetFirst`, `Length` and
`ValidLength` do not fail with NilReceiver — their signatures carry no error
at all, and they return true / absent / 0 / (0,0,0), refuting the blanket
"all operations fail with NilReceiver" for these four. -/
theorem c2_counterexample :
    List_base.Empty (initState Int 0) none = true ∧
    List_base.GetFirst (initState Int 0) none = none ∧
    List_base.Length (initState Int 0) none = 0 ∧
    List_base.ValidLength (initState Int 0) none = (0, 0, 0) :=
  ⟨rfl, rfl, rfl, rfl⟩

/-- Claim C2 (amended): the mutating and fallible operations (append,
appendValue, prepend, prependValue, popFirst, popLast, contains, remove,
clear) fail with NilReceiver on a nil receiver; isEmpty, head, length and
validateLength instead return the benign defaults true, absent, 0 and
(0,0,0) without any error channel. -/
theorem c2_nil_receiver_contract {α : Type} (st : State α) (v : α) (q : Ptr) :
    List_base.Append st none q = (st, some Err.nilReceiver) ∧
    List_base.AppendValue st none v = (st, some Err.nilReceiver) ∧
    List_base.Prepend st none q = (st, some Err.nilReceiver) ∧
    List_base.PrependValue st none v = (st, some Err.nilReceiver) ∧
    List_base.Popfirst st none = (none, st, some Err.nilReceiver) ∧
    List_base.Poplast st none = (none, st, some Err.nilReceiver) ∧
    List_base.Found st none q = (false, some Err.nilReceiver) ∧
    List_base.Remove st none q = (none, st, some Err.nilReceiver) ∧
    List_base.Clear st none = (st, some Err.nilReceiver) ∧
    List_base.Empty st none = true ∧
    List_base.GetFirst st none = none ∧
    List_base.Length st none = 0 ∧
    List_base.ValidLength st none = (0, 0, 0) :=
  ⟨rfl, rfl, rfl, rfl, rfl, rfl, rfl, rfl, rfl, rfl, rfl, rfl, rfl⟩

/-- Claim C3 (corrected): in the scenario heap (values "a","b" appended, node
2 never inserted), `Found` and `Remove` of the free node both report a
NotOwner error, refuting the claimed "no error" outcomes: the source rejects
any node whose owner is not this list, a nil owner included, before
scanning. -/
theorem c3_counterexample :
    (List_base.Found stC3 (some 0) (some 2)).2 ≠ none ∧
    (List_base.Remove stC3 (some 0) (some 2)).2.2 ≠ none := by
  decide

/-- Claim C3 (amended): `contains` of the never-inserted node returns false
and fails with NotOwner, and `remove` of that node returns absent, fails with
NotOwner and leaves the heap unchanged. -/
theorem c3_contains_remove_free_node :
    List_base.Found stC3 (some 0) (some 2) = (false, some Err.notOwner) ∧
    List_base.Remove stC3 (some 0) (some 2) = (none, stC3, some Err.notOwner) := by
  decide

/-- Claim C4 (confirmed): appending a node whose owner is set — to this or
any other list — fails with AlreadyOwned and returns the state unchanged, so
both the target list and the owning list are untouched. -/
theorem c4_append_already_owned {α : Type} (st : State α) (b i o : Nat)
    (h : (getNode st i).base = some o) :
    List_base.Append st (some b) (some i) = (st, some Err.alreadyOwned) :=
  Append_owned_eq (by rw [h]; exact fun he => Option.noConfusion he)

theorem c4_witness :
    (getNode stW4 0).base = some 0 ∧
    List_base.Append stW4 (some 0) (some 0) = (stW4, some Err.alreadyOwned) :=
  ⟨by decide, c4_append_already_owned stW4 0 0 0 (by decide)⟩

/-- Claim C5 (confirmed): in every state reachable by the public operations,
the chain of nodes hanging off any list's `first` consists exclusively of
nodes whose owner is that list. -/
theorem c5_reachable_ownership {α : Type} {st : State α} (h : Reachable st)
    (b : Nat) (hb : b < st.bases.length) :
    ∃ L, chainSeg st (getBase st b).first L none ∧
      ∀ i ∈ L, (getNode st i).base = some b := by
  obtain ⟨L, hL⟩ := Reachable_inv h b hb
  exact ⟨L, hL.chain, hL.owned⟩

theorem c5_witness :
    ∃ L, chainSeg stW5 (getBase stW5 0).first L none ∧
      ∀ i ∈ L, (getNode stW5 i).base = some 0 :=
  c5_reachable_ownership
    (Reachable.append 0 0 (Reachable.alloc (Reachable.init 1)) (by decide) (by decide))
    0 (by decide)

/-- Claim C6 (confirmed): appending 1,2,3 and iterating from unstarted yields
the nodes carrying 1,2,3 in order and then (absent, no error); `Restart`
returns the iterator to the unstarted cursor, so a second traversal passes
through exactly the same iterator states and reproduces the sequence. -/
theorem c6_roundtrip :
    List_iter.Next stC6 (some ⟨some 0, none⟩) = (some 0, some ⟨some 0, some 0⟩, none) ∧
    List_iter.Next stC6 (some ⟨some 0, some 0⟩) = (some 1, some ⟨some 0, some 1⟩, none) ∧
    List_iter.Next stC6 (some ⟨some 0, some 1⟩) = (some 2, some ⟨some 0, some 2⟩, none) ∧
    List_iter.Next stC6 (some ⟨some 0, some 2⟩) = (none, some ⟨some 0, some 2⟩, none) ∧
    (getNode stC6 0).value = some 1 ∧ (getNode stC6 1).value = some 2 ∧
    (getNode stC6 2).value = some 3 ∧
    List_iter.Restart (some (⟨some 0, some 2⟩ : IterData)) = (some ⟨some 0, none⟩, none) := by
  decide

/-- Claim C7 (confirmed): clearing a well-formed list of N nodes (the chain
`L`) reports no error, empties the list, detaches every chain node, and a
second clear is a no-op returning no error. -/
theorem c7_clear_spec {α : Type} {st : State α} {b : Nat} {L : List Nat}
    (hb : b < st.bases.length) (hL : BaseInv st b L) :
    (List_base.Clear st (some b)).2 = none ∧
    getBase (List_base.Clear st (some b)).1 b = ⟨none, none⟩ ∧
    (∀ i ∈ L, (getNode (List_base.Clear st (some b)).1 i).base = none) ∧
    List_base.Clear (List_base.Clear st (some b)).1 (some b) =
      ((List_base.Clear st (some b)).1, none) := by
  cases hf : (getBase st b).first with
  | none =>
    have hLnil : L = [] := hL.first_none hf
    have hl : (getBase st b).last = none := by
      rw [hL.lastEq, hLnil]
      rfl
    rw [Clear_nil_eq hf]
    refine ⟨rfl, ?_, by simp [hLnil], Clear_nil_eq hf⟩
    cases hgb : getBase st b with
    | mk fst lst =>
      rw [hgb] at hf hl
      simp only at hf hl
      rw [hf, hl]
  | some f =>
    cases hl : (getBase st b).last with
    | none =>
      exfalso
      have hLnil : L = [] := hL.last_none hl
      have hc := hL.chain
      rw [hLnil, hf] at hc
      exact absurd (chainSeg_nil.mp hc) (by simp)
    | some x =>
      have hfuel : L.length < st.nodes.length + 1 :=
        Nat.lt_succ_of_le (nodup_length_le hL.nodup hL.valid)
      obtain ⟨hc1, hc2, _, _, _, _⟩ :=
        clearAux_spec hb hL.chain hL.lastEq hL.valid hL.nodup hfuel
      rw [Clear_run_eq hf hl]
      refine ⟨rfl, hc1, ?_, ?_⟩
      · intro i hi
        rw [hc2 i hi]
      · have hfirst : (getBase (clearAux st b (st.nodes.length + 1)) b).first = none := by
          rw [hc1]
        exact Clear_nil_eq hfirst

theorem c7_witness :
    (List_base.Clear stW7 (some 0)).2 = none ∧
    getBase (List_base.Clear stW7 (some 0)).1 0 = ⟨none, none⟩ ∧
    (∀ i ∈ [0, 1], (getNode (List_base.Clear stW7 (some 0)).1 i).base = none) ∧
    List_base.Clear (List_base.Clear stW7 (some 0)).1 (some 0) =
      ((List_base.Clear stW7 (some 0)).1, none) :=
  c7_clear_spec (by decide) ⟨⟨rfl, rfl, rfl⟩, by decide, by decide, by decide, rfl⟩

/-- Claim C8 (corrected): on the corrupt heap `stC8` (head node's owner nil),
advancing a bound unstarted iterator does fail with CorruptState, but the
cursor is not left unstarted: the source assigns `p.current = p.base.first`
before the ownership checks, so the cursor ends up on the head. -/
theorem c8_counterexample :
    List_iter.Next stC8 (some ⟨some 0, none⟩) =
      (none, some ⟨some 0, some 0⟩, some Err.corruptState) ∧
    (⟨some 0, some 0⟩ : IterData).current ≠ none := by
  decide

/-- Claim C8 (amended): from an unstarted bound iterator, when the head node's
owner is absent or differs from the bound list, `Next` fails with CorruptState
and the cursor is set to the head (the iterator becomes positioned there, not
left unstarted). -/
theorem c8_next_corrupt_head {α : Type} (st : State α) (it : IterData) (b f : Nat)
    (hbase : it.base = some b) (hcur : it.current = none)
    (hf : (getBase st b).first = some f)
    (hbad : (getNode st f).base = none ∨ (getNode st f).base ≠ some b) :
    List_iter.Next st (some it) =
      (none, some { it with current := some f }, some Err.corruptState) := by
  obtain ⟨ib, ic⟩ := it
  simp only at hbase hcur
  subst hbase hcur
  rcases hbad with hbad | hbad
  · simp [List_iter.Next, hf, hbad]
  · by_cases h0 : (getNode st f).base = none
    · simp [List_iter.Next, hf, h0]
    · simp [List_iter.Next, hf, h0, hbad]

theorem c8_witness :
    (⟨some 0, none⟩ : IterData).current = none ∧
    List_iter.Next stC8 (some ⟨some 0, none⟩) =
      (none, some ⟨some 0, some 0⟩, some Err.corruptState) :=
  ⟨rfl, c8_next_corrupt_head stC8 ⟨some 0, none⟩ 0 0 rfl rfl (by decide) (Or.inl (by decide))⟩

/-- Claim C9 (confirmed): `Append` and `Prepend` with a nil node argument
return success with the state — and hence `first`, `last` and the whole
chain — entirely unchanged: a silent no-op, not an error. -/
theorem c9_nil_node_noop {α : Type} (st : State α) (b : Nat) :
    List_base.Append st (some b) none = (st, none) ∧
    List_base.Prepend st (some b) none = (st, none) :=
  ⟨rfl, rfl⟩

/-- Claim C10 (confirmed): a positioned iterator whose cursor is owned by the
bound list and has no successor gets (absent, no error) from `Next`, with the
iterator returned unchanged — so every further call repeats the same outcome
and end-of-traversal is stable. -/
theorem c10_next_end_stable {α : Type} (st : State α) (it : IterData) (b c : Nat)
    (hbase : it.base = some b) (hcur : it.current = some c)
    (hc : (getNode st c).base = some b) (hnx : (getNode st c).next = none) :
    List_iter.Next st (some it) = (none, some it, none) := by
  obtain ⟨ib, ic⟩ := it
  simp only at hbase hcur
  subst hbase hcur
  simp [List_iter.Next, hc, hnx]

theorem c10_witness :
    (getNode stC10 0).next = none ∧
    List_iter.Next stC10 (some ⟨some 0, some 0⟩) = (none, some ⟨some 0, some 0⟩, none) :=
  ⟨rfl, c10_next_end_stable stC10 ⟨some 0, some 0⟩ 0 0 rfl rfl (by decide) (by decide)⟩

end S2L
